import Mathlib

/-!
Verification of the actor/movie graph core (graph_entities.py, calculations.py,
Datasets/graph_entities_v2.py) against its natural-language specification.

The Python classes are shallowly embedded: the `_vertices` dict becomes an
association list in insertion order, Python sets become duplicate-free lists
(insertion-ordered), float values become `Rat`, `float("inf")` becomes `none`
in an `Option`, and raising an exception becomes returning an error value.
-/

namespace MovieGraph

/-- Python exception kinds raised by the embedded code. -/
inductive Err where
  | valueError
  | keyError
  | zeroDivision
deriving DecidableEq

instance {ε α : Type} [DecidableEq ε] [DecidableEq α] :
    DecidableEq (Except ε α) := fun x y =>
  match x, y with
  | .ok a, .ok b =>
    if h : a = b then .isTrue (by rw [h]) else .isFalse (by simp [h])
  | .error a, .error b =>
    if h : a = b then .isTrue (by rw [h]) else .isFalse (by simp [h])
  | .ok _, .error _ => .isFalse (by simp)
  | .error _, .ok _ => .isFalse (by simp)

/-- `_Vertex` from graph_entities.py: item, kind, neighbours, appearences,
cast_members and the optional movie_info tuple (year, votes, rating), which is
unset until `add_movie_info` is called. Neighbours are stored as the keys of
the adjacent vertices. -/
structure Vertex where
  item : String
  kind : String
  neighbours : List String
  appearences : List String
  cast_members : List String
  movie_info : Option (Rat × Rat × Rat)
deriving DecidableEq

/-- Lookup in an association list (a Python dict in insertion order). -/
def assocGet {α : Type} : List (String × α) → String → Option α
  | [], _ => none
  | kv :: rest, k => if kv.1 = k then some kv.2 else assocGet rest k

/-- Python dict assignment `d[k] = v`: overwrite if the key is present,
append otherwise. -/
def assocSet {α : Type} (l : List (String × α)) (k : String) (v : α) :
    List (String × α) :=
  if (assocGet l k).isSome then
    l.map (fun kv => if kv.1 = k then (kv.1, v) else kv)
  else
    l ++ [(k, v)]

/-- Update the value at a key that is already present. -/
def assocUpd {α : Type} (l : List (String × α)) (k : String) (f : α → α) :
    List (String × α) :=
  l.map (fun kv => if kv.1 = k then (kv.1, f kv.2) else kv)

/-- Python `set.add`: append the element unless already present. -/
def linsert (l : List String) (x : String) : List String :=
  if x ∈ l then l else l ++ [x]

/-- `Graph` from graph_entities.py: the private `_vertices` dict. -/
structure Graph where
  vertices : List (String × Vertex)
deriving DecidableEq

namespace Graph

/-- Dict lookup `self._vertices[item]` as an `Option`. -/
def findV (g : Graph) (k : String) : Option Vertex :=
  assocGet g.vertices k

/-- `item in self._vertices`. -/
def item_in_graph (g : Graph) (item : String) : Bool :=
  (g.findV item).isSome

/-- The keys of the `_vertices` dict, in insertion order. -/
def keysList (g : Graph) : List String :=
  g.vertices.map Prod.fst

/-- The neighbour keys of a vertex (empty for an absent key; the Python code
only ever asks for the neighbours of a present vertex). -/
def nbrs (g : Graph) (k : String) : List String :=
  match g.findV k with
  | some v => v.neighbours
  | none => []

/-- `Graph.add_vertex`: insert a fresh isolated vertex, no-op if the item is
already a key. -/
def add_vertex (g : Graph) (item kind : String) : Graph :=
  if g.item_in_graph item then g
  else ⟨g.vertices ++ [(item, ⟨item, kind, [], [], [], none⟩)]⟩

/-- `Graph.add_edge`: insert the symmetric adjacency pair, or raise
`ValueError` (leaving the graph unchanged) if either item is absent. -/
def add_edge (g : Graph) (item1 item2 : String) : Graph × Option Err :=
  if g.item_in_graph item1 ∧ g.item_in_graph item2 then
    (⟨assocUpd (assocUpd g.vertices item1
        (fun v => { v with neighbours := linsert v.neighbours item2 })) item2
        (fun v => { v with neighbours := linsert v.neighbours item1 })⟩, none)
  else
    (g, some .valueError)

/-- `Graph.adjacent`: `False` when either item is absent, never an error. -/
def adjacent (g : Graph) (item1 item2 : String) : Bool :=
  if g.item_in_graph item1 ∧ g.item_in_graph item2 then
    (g.nbrs item1).contains item2
  else
    false

/-- `Graph.add_appearences`: record a movie in the actor's appearance set, or
raise `ValueError` (graph unchanged) if the actor is absent. -/
def add_appearences (g : Graph) (actor movie : String) : Graph × Option Err :=
  if g.item_in_graph actor then
    (⟨assocUpd g.vertices actor
        (fun v => { v with appearences := linsert v.appearences movie })⟩, none)
  else
    (g, some .valueError)

/-- `Graph.add_movie_info`: merge the cast set into `cast_members` and
overwrite `movie_info`, or raise `ValueError` (graph unchanged) if the movie
is absent. -/
def add_movie_info (g : Graph) (movie : String) (actors : List String)
    (info : Rat × Rat × Rat) : Graph × Option Err :=
  if g.item_in_graph movie then
    (⟨assocUpd g.vertices movie
        (fun v => { v with
          cast_members := actors.foldl linsert v.cast_members
          movie_info := some info })⟩, none)
  else
    (g, some .valueError)

end Graph

/-- Cardinality of the intersection of two Python sets (duplicate-free lists). -/
def interCard (l1 l2 : List String) : Nat :=
  (l1.filter (fun x => x ∈ l2)).length

/-- Cardinality of the union of two Python sets (duplicate-free lists). -/
def unionCard (l1 l2 : List String) : Nat :=
  (l1 ++ l2.filter (fun x => x ∉ l1)).length

/-- `_Vertex.similarity_score`. The Python guard is `self.cast_members == 0`,
which compares a set with the integer 0 and is therefore always false; the
guard is transcribed as the constant `false` below. When both cast sets are
empty the union is empty and the division raises `ZeroDivisionError`. -/
def setEqZeroInt (_ : List String) : Bool := false

/-- `_Vertex.similarity_score` from graph_entities.py. -/
def Vertex.similarity_score (v other : Vertex) : Except Err Rat :=
  if setEqZeroInt v.cast_members || setEqZeroInt other.cast_members then
    .ok 0
  else
    if unionCard v.cast_members other.cast_members = 0 then
      .error .zeroDivision
    else
      .ok ((interCard v.cast_members other.cast_members : Rat) /
        (unionCard v.cast_members other.cast_members : Rat))

/-- `Graph.get_similarity_score`: raise `ValueError` if either item is
absent, else delegate to `_Vertex.similarity_score`. -/
def Graph.get_similarity_score (g : Graph) (item1 item2 : String) :
    Except Err Rat :=
  match g.findV item1, g.findV item2 with
  | some v1, some v2 => v1.similarity_score v2
  | _, _ => .error .valueError

/-- The inner `for neighbour in ...` loop of `shortest_path_bfs`: enqueue
each unvisited neighbour with its extended path and mark it visited. -/
def bfsEnqueue (p : List String) :
    List String → List (String × List String) → List String →
    List (String × List String) × List String
  | [], queue, visited => (queue, visited)
  | n :: rest, queue, visited =>
    if n ∈ visited then bfsEnqueue p rest queue visited
    else bfsEnqueue p rest (queue ++ [(n, p ++ [n])]) (visited ++ [n])

/-- The `while queue` loop of `shortest_path_bfs`, with explicit fuel. The
fuel passed by `shortest_path_bfs` is proved sufficient below, so the `none`
(fuel exhausted) branch is never reached. -/
def bfsLoop (g : Graph) (target : String) :
    List (String × List String) → List String → Nat → Option (List String)
  | [], _, _ => some []
  | (c, p) :: queue, visited, fuel + 1 =>
    if c = target then some p
    else
      let qv := bfsEnqueue p (g.nbrs c) queue visited
      bfsLoop g target qv.1 qv.2 fuel
  | _ :: _, _, 0 => none

/-- `Graph.shortest_path_bfs` from graph_entities.py: raise `ValueError` if
either endpoint is absent, else run BFS from a one-element queue. -/
def Graph.shortest_path_bfs (g : Graph) (starting_item target_item : String) :
    Except Err (List String) :=
  if g.item_in_graph starting_item ∧ g.item_in_graph target_item then
    .ok ((bfsLoop g target_item [(starting_item, [starting_item])]
      [starting_item] (g.vertices.length + 1)).getD [])
  else .error .valueError

/-- The inner neighbour loop of `shortest_distance_bfs`: label each
unvisited neighbour with `distances[current] + 1` (where the `+ 1` keeps
`float("inf")`, i.e. `none`, infinite) and enqueue it. -/
def distEnqueue (dc : Option Nat) :
    List String → List String → List String → List (String × Option Nat) →
    List String × List String × List (String × Option Nat)
  | [], queue, visited, distances => (queue, visited, distances)
  | n :: rest, queue, visited, distances =>
    if n ∈ visited then distEnqueue dc rest queue visited distances
    else distEnqueue dc rest (queue ++ [n]) (visited ++ [n])
      (assocSet distances n (dc.map (· + 1)))

/-- The `while queue` loop of `shortest_distance_bfs`, with explicit fuel. -/
def distLoop (g : Graph) :
    List String → List String → List (String × Option Nat) → Nat →
    Option (List (String × Option Nat))
  | [], _, distances, _ => some distances
  | c :: queue, visited, distances, fuel + 1 =>
    let st := distEnqueue ((assocGet distances c).getD none) (g.nbrs c)
      queue visited distances
    distLoop g st.1 st.2.1 st.2.2 fuel
  | _ :: _, _, _, 0 => none

/-- `Graph.shortest_distance_bfs` from graph_entities.py: initialise every
vertex to `float("inf")` (`none`), the start to `0`, then BFS. Raises
`ValueError` if the start is absent. -/
def Graph.shortest_distance_bfs (g : Graph) (starting_item : String) :
    Except Err (List (String × Option Nat)) :=
  if g.item_in_graph starting_item then
    let d0 := assocSet (g.vertices.map (fun kv => (kv.1, (none : Option Nat))))
      starting_item (some 0)
    .ok ((distLoop g [starting_item] [starting_item] d0
      (g.vertices.length + 1)).getD d0)
  else .error .valueError

/-- `Graph.average_bacon_number` from graph_entities.py: the sum of the
finite distances over their count, or `float("inf")` (`none`) when no
distance is finite. -/
def Graph.average_bacon_number (g : Graph) (actor : String) :
    Except Err (Option Rat) :=
  match g.shortest_distance_bfs actor with
  | .error e => .error e
  | .ok distances =>
    let finite := distances.filterMap Prod.snd
    .ok (if 0 < finite.length then
      some ((finite.sum : Rat) / (finite.length : Rat))
    else none)

/-- A value of the `movies` dict built by graph_create.load_csv_file:
`movie ↦ ({cast}, (year, votes, rating))`. The numeric fields are modelled
as rationals (the Python code converts the CSV strings on use). -/
structure MovieRec where
  cast : List String
  year : Rat
  votes : Rat
  rating : Rat
deriving DecidableEq

/-- `get_similarity_score_dict` from calculations.py: raise `ValueError` if
either movie is absent; return `0` when either cast set is empty; otherwise
the Jaccard quotient (whose denominator is then nonzero). -/
def get_similarity_score_dict (movies : List (String × MovieRec))
    (movie1 movie2 : String) : Except Err Rat :=
  match assocGet movies movie1, assocGet movies movie2 with
  | some r1, some r2 =>
    if r1.cast = [] ∨ r2.cast = [] then .ok 0
    else .ok ((interCard r1.cast r2.cast : Rat) /
      (unionCard r1.cast r2.cast : Rat))
  | _, _ => .error .valueError

/-- `similarity_filter` from calculations.py. -/
def similarity_filter (movies : List (String × MovieRec))
    (input_movie key : String) (lower upper : Rat) : Except Err Bool :=
  match assocGet movies input_movie with
  | none => .error .valueError
  | some r =>
    if key = "rating" then .ok (decide (lower ≤ r.rating ∧ r.rating ≤ upper))
    else if key = "release date" then
      .ok (decide (lower ≤ r.year ∧ r.year ≤ upper))
    else .error .keyError

/-- `get_similarity_score_dict` as used inside the loops of
`get_recommendations`, where both keys are present so it cannot raise. -/
def simVal (movies : List (String × MovieRec)) (movie1 movie2 : String) :
    Rat :=
  ((get_similarity_score_dict movies movie1 movie2).toOption).getD 0

/-- `similarity_filter` as used inside the filtered loop of
`get_recommendations`, where the movie is present and the key is one of the
two recognised ones, so it cannot raise. -/
def filtVal (movies : List (String × MovieRec)) (input_movie key : String)
    (lower upper : Rat) : Bool :=
  ((similarity_filter movies input_movie key lower upper).toOption).getD false

/-- One insertion step of the stable descending sort performed by Python's
`sorted(..., reverse=True)`: place `x` before the first element whose sort
key is `≤` that of `x`, so that equal keys keep their original order. -/
def insertDescBy {α : Type} (f : α → Rat) (x : α) : List α → List α
  | [] => [x]
  | y :: ys => if f y ≤ f x then x :: y :: ys else y :: insertDescBy f x ys

/-- Python's `sorted(l, key=f, reverse=True)`: stable descending sort. -/
def sortDescBy {α : Type} (f : α → Rat) : List α → List α
  | [] => []
  | x :: xs => insertDescBy f x (sortDescBy f xs)

/-- The two return shapes of `get_recommendations`: a `(list, dict)` pair in
the unfiltered branch and a `(dict, dict)` pair in the filtered branch. -/
inductive RecResult where
  | plain (recs : List String) (scores : List (String × Rat))
  | withAttr (final : List (String × Rat)) (scores : List (String × Rat))
deriving DecidableEq

/-- The sequence of recommended movies carried by either return shape. -/
def RecResult.seq : RecResult → List String
  | .plain recs _ => recs
  | .withAttr final _ => final.map Prod.fst

/-- `get_recommendations` from calculations.py. -/
def get_recommendations (movies : List (String × MovieRec))
    (input_movie : String) (limit : Nat) (key : String)
    (thresholds : Rat × Rat) : Except Err RecResult :=
  if (assocGet movies input_movie).isNone then .error .valueError
  else if key = "" then
    let recommendations := movies.filterMap (fun mv =>
      if mv.1 ≠ input_movie ∧ 0 < simVal movies input_movie mv.1 then
        some (mv.1, simVal movies input_movie mv.1)
      else none)
    .ok (.plain (((sortDescBy Prod.snd recommendations).map Prod.fst).take
      limit) recommendations)
  else if key = "rating" ∨ key = "release date" then
    let lower := thresholds.1
    let upper := thresholds.2
    let recommendations := movies.filterMap (fun mv =>
      if mv.1 ≠ input_movie ∧ filtVal movies mv.1 key lower upper ∧
          0 < simVal movies input_movie mv.1 then
        some (mv.1, simVal movies input_movie mv.1)
      else none)
    let sortedRecs := (sortDescBy Prod.snd recommendations).map Prod.fst
    let finalRecs := (sortedRecs.take limit).map (fun m =>
      (m, if key = "rating" then
            ((assocGet movies m).map MovieRec.rating).getD 0
          else ((assocGet movies m).map MovieRec.year).getD 0))
    .ok (.withAttr finalRecs recommendations)
  else .error .valueError

/-- The `recommendations` dict built by the unfiltered branch of
`get_recommendations` (same term as in its body). -/
def recsPlain (movies : List (String × MovieRec)) (input_movie : String) :
    List (String × Rat) :=
  movies.filterMap (fun mv =>
    if mv.1 ≠ input_movie ∧ 0 < simVal movies input_movie mv.1 then
      some (mv.1, simVal movies input_movie mv.1)
    else none)

/-- The `recommendations` dict built by the filtered branch of
`get_recommendations` (same term as in its body). -/
def recsFilt (movies : List (String × MovieRec)) (input_movie key : String)
    (lower upper : Rat) : List (String × Rat) :=
  movies.filterMap (fun mv =>
    if mv.1 ≠ input_movie ∧ filtVal movies mv.1 key lower upper ∧
        0 < simVal movies input_movie mv.1 then
      some (mv.1, simVal movies input_movie mv.1)
    else none)

/-- The appearance set of a vertex (empty for an absent key). -/
def Graph.appearOf (g : Graph) (k : String) : List String :=
  match g.findV k with
  | some v => v.appearences
  | none => []

/-- The set comprehension inside `filter_by_key` (graph_entities_v2.py):
keep the common movies whose selected attribute lies in `[lower, upper]`;
looking up a movie missing from the `movies` dict raises `KeyError`. -/
def filterRange (movies : List (String × MovieRec)) (sel : MovieRec → Rat)
    (lower upper : Rat) : List String → Except Err (List String)
  | [] => .ok []
  | m :: rest =>
    match assocGet movies m with
    | none => .error .keyError
    | some r =>
      match filterRange movies sel lower upper rest with
      | .error e => .error e
      | .ok cf =>
        if lower ≤ sel r ∧ sel r ≤ upper then .ok (m :: cf) else .ok cf

/-- `Graph.filter_by_key` from Datasets/graph_entities_v2.py. The
`else: raise KeyError` in the source is attached to the `if key == 'rating'`
statement, so it also fires when `key == 'year'` and the year-filtered set
was empty (the fall-through from the first branch reaches it). -/
def Graph.filter_by_key (g : Graph) (actor1 actor2 key : String)
    (lower upper : Rat) (movies : List (String × MovieRec)) :
    Except Err (Bool × List String) := do
  if g.item_in_graph actor1 ∧ g.item_in_graph actor2 then
    if key = "year" then
      let common := (g.appearOf actor1).filter (fun m => m ∈ g.appearOf actor2)
      let cf ← filterRange movies (fun r => r.year) lower upper common
      if cf ≠ [] then return (true, cf)
    if key = "rating" then
      let common := (g.appearOf actor1).filter (fun m => m ∈ g.appearOf actor2)
      let cf ← filterRange movies (fun r => r.rating) lower upper common
      if cf ≠ [] then return (true, cf)
    else
      throw .keyError
    return (false, [])
  else
    throw .valueError

/-- The neighbour loop of `shortest_path_bfs_filtered`
(graph_entities_v2.py). The source calls
`filter_by_key(current_actor, neighbour.item, key, upper, lower, movies)`,
passing `upper` into the `lower` parameter and `lower` into the `upper`
parameter of `filter_by_key`. -/
def bfsFilteredEnqueue (g : Graph) (movies : List (String × MovieRec))
    (key : String) (lower upper : Rat) (c : String) (p : List String) :
    List String → List (String × List String) → List String →
    Except Err (List (String × List String) × List String)
  | [], queue, visited => .ok (queue, visited)
  | n :: rest, queue, visited =>
    if n ∈ visited then
      bfsFilteredEnqueue g movies key lower upper c p rest queue visited
    else
      match g.filter_by_key c n key upper lower movies with
      | .error e => .error e
      | .ok validMovies =>
        if validMovies.1 then
          bfsFilteredEnqueue g movies key lower upper c p rest
            (queue ++ [(n, p ++ [n])]) (visited ++ [n])
        else
          bfsFilteredEnqueue g movies key lower upper c p rest queue visited

/-- The `while queue` loop of `shortest_path_bfs_filtered`, with explicit
fuel. -/
def bfsFilteredLoop (g : Graph) (movies : List (String × MovieRec))
    (key : String) (lower upper : Rat) (target : String) :
    List (String × List String) → List String → Nat →
    Option (Except Err (List String))
  | [], _, _ => some (.ok [])
  | (c, p) :: queue, visited, fuel + 1 =>
    if c = target then some (.ok p)
    else
      match bfsFilteredEnqueue g movies key lower upper c p (g.nbrs c)
          queue visited with
      | .error e => some (.error e)
      | .ok qv => bfsFilteredLoop g movies key lower upper target qv.1 qv.2 fuel
  | _ :: _, _, 0 => none

/-- `Graph.shortest_path_bfs_filtered` from Datasets/graph_entities_v2.py. -/
def Graph.shortest_path_bfs_filtered (g : Graph)
    (starting_item target_item key : String) (lower upper : Rat)
    (movies : List (String × MovieRec)) : Except Err (List String) :=
  if g.item_in_graph starting_item ∧ g.item_in_graph target_item then
    (bfsFilteredLoop g movies key lower upper target_item
      [(starting_item, [starting_item])] [starting_item]
      (g.vertices.length + 1)).getD (.ok [])
  else .error .valueError

/-! ### Specification-side notions -/

/-- A walk of a given length along neighbour links. -/
inductive WalkN (g : Graph) : String → String → Nat → Prop
  | nil (a : String) : WalkN g a a 0
  | cons {a b c : String} {n : Nat} :
      b ∈ g.nbrs a → WalkN g b c n → WalkN g a c (n + 1)

/-- Reachability along neighbour links. -/
def ReachG (g : Graph) (a b : String) : Prop :=
  ∃ n, WalkN g a b n

/-- The hop-distances realised by walks from `a` to `b`; the minimum
hop-distance is the least element of this set. -/
def wset (g : Graph) (a b : String) : Set Nat :=
  {n | WalkN g a b n}

/-- The representation invariants of the vertex store used by the BFS
metatheory: every neighbour list is duplicate-free and mentions only present
vertices. Graphs built through the class API satisfy them. -/
def Graph.WF (g : Graph) : Prop :=
  ∀ kv ∈ g.vertices, kv.2.neighbours.Nodup ∧
    ∀ n ∈ kv.2.neighbours, g.item_in_graph n = true

instance (g : Graph) : Decidable g.WF := by
  unfold Graph.WF
  infer_instance

/-- The unvisited neighbours of `c`, in neighbour-list order: exactly the
keys that one pass of the BFS inner loop enqueues. -/
def freshL (g : Graph) (c : String) (V : List String) : List String :=
  (g.nbrs c).filter (fun y => y ∉ V)

/-- The invariant of the labelled BFS queue shared by the path and the
distance loops: `Q` pairs each discovered-but-unprocessed key with its exact
hop-distance from `s`, and `V` is the list of discovered keys. -/
structure CoreInv (g : Graph) (s : String) (Q : List (String × Nat))
    (V : List String) : Prop where
  qmem : ∀ kl ∈ Q, kl.1 ∈ V ∧ IsLeast (wset g s kl.1) kl.2
  vnodup : V.Nodup
  qnodup : (Q.map Prod.fst).Nodup
  smem : s ∈ V
  procClosed : ∀ x ∈ V, x ∉ Q.map Prod.fst → ∀ y ∈ g.nbrs x, y ∈ V
  vreach : ∀ x ∈ V, ReachG g s x
  mono : Q.Pairwise (fun a b => a.2 ≤ b.2)
  span : ∀ a ∈ Q, ∀ b ∈ Q, a.2 ≤ b.2 + 1
  procLe : ∀ x ∈ V, x ∉ Q.map Prod.fst → ∀ dx, IsLeast (wset g s x) dx →
    ∀ b ∈ Q, dx ≤ b.2
  front : ∀ x, ReachG g s x → x ∉ V → ∃ kl ∈ Q, ∃ m, 1 ≤ m ∧
    WalkN g kl.1 x m ∧ IsLeast (wset g s x) (kl.2 + m)

/-- The graphs reachable from the empty graph by `add_vertex` and `add_edge`
calls, `add_edge` being invoked only under its documented precondition
`item1 != item2` (failed `add_edge` calls leave the graph unchanged, so they
are covered as well). -/
inductive Built : Graph → Prop
  | empty : Built ⟨[]⟩
  | vertex {g : Graph} (item kind : String) :
      Built g → Built (g.add_vertex item kind)
  | edge {g : Graph} (item1 item2 : String) :
      Built g → item1 ≠ item2 → Built (g.add_edge item1 item2).1

/-- The adjacency invariants maintained by the construction API: unique
keys, coherent item fields, no self-loops, and symmetric, duplicate-free
neighbour lists that mention only present vertices. -/
structure GoodG (g : Graph) : Prop where
  keysNodup : g.keysList.Nodup
  itemEq : ∀ kv ∈ g.vertices, kv.2.item = kv.1
  noSelf : ∀ kv ∈ g.vertices, kv.1 ∉ kv.2.neighbours
  symm : ∀ a b, b ∈ g.nbrs a → a ∈ g.nbrs b
  closed : ∀ kv ∈ g.vertices, ∀ n ∈ kv.2.neighbours,
    g.item_in_graph n = true
  nbrNodup : ∀ kv ∈ g.vertices, kv.2.neighbours.Nodup

/-! ### Concrete graphs used as counterexamples and witnesses -/

/-- Two movie vertices with empty cast sets. -/
def gEmptyCast : Graph :=
  ⟨[("M1", ⟨"M1", "movie", [], [], [], none⟩),
    ("M2", ⟨"M2", "movie", [], [], [], none⟩)]⟩

/-- Two actors sharing one movie whose year is 1980. -/
def gYearKE : Graph :=
  ⟨[("a1", ⟨"a1", "actor", [], ["m"], [], none⟩),
    ("a2", ⟨"a2", "actor", [], ["m"], [], none⟩)]⟩

/-- The movies dict for `gYearKE`. -/
def mvYearKE : List (String × MovieRec) :=
  [("m", ⟨["a1", "a2"], 1980, 0, 5⟩)]

/-- Two adjacent actors who share the movie `M`. -/
def gSwap : Graph :=
  ⟨[("A", ⟨"A", "actor", ["B"], ["M"], [], none⟩),
    ("B", ⟨"B", "actor", ["A"], ["M"], [], none⟩)]⟩

/-- The movies dict for `gSwap`: `M` has rating 5. -/
def mvSwap : List (String × MovieRec) :=
  [("M", ⟨["A", "B"], 2000, 0, 5⟩)]

/-- A single isolated vertex. -/
def gIso : Graph :=
  ⟨[("A", ⟨"A", "actor", [], [], [], none⟩)]⟩

/-- A two-vertex path plus an isolated vertex. -/
def gPath : Graph :=
  ⟨[("A", ⟨"A", "actor", ["B"], [], [], none⟩),
    ("B", ⟨"B", "actor", ["A"], [], [], none⟩),
    ("C", ⟨"C", "actor", [], [], [], none⟩)]⟩

/-- A graph obtained through the construction API: two actors and one edge. -/
def gBuiltW : Graph :=
  ((((⟨[]⟩ : Graph).add_vertex "A" "actor").add_vertex "B"
    "actor").add_edge "A" "B").1

/-- A movies dict with distinct overlaps with `M1`, used for the
recommendation witness. -/
def mvRecs : List (String × MovieRec) :=
  [("M1", ⟨["a", "b"], 1990, 0, 5⟩),
   ("M2", ⟨["b", "c"], 1995, 0, 6⟩),
   ("M3", ⟨["a", "b", "d"], 2000, 0, 7⟩),
   ("M4", ⟨["z"], 2005, 0, 8⟩)]

/-! ### Association-list lemmas -/

theorem assocUpd_cons {α : Type} (kv : String × α) (rest : List (String × α))
    (k : String) (f : α → α) :
    assocUpd (kv :: rest) k f =
      (if kv.1 = k then (kv.1, f kv.2) else kv) :: assocUpd rest k f := rfl

theorem assocGet_assocUpd {α : Type} (l : List (String × α)) (k : String)
    (f : α → α) (k' : String) :
    assocGet (assocUpd l k f) k' =
      if k' = k then (assocGet l k').map f else assocGet l k' := by
  induction l with
  | nil => simp [assocUpd, assocGet]
  | cons kv rest ih =>
    rw [assocUpd_cons]
    by_cases h1 : kv.1 = k
    · rw [if_pos h1]
      by_cases h2 : kv.1 = k'
      · have hk : k' = k := by rw [← h2, h1]
        simp [assocGet, h2, hk, ih]
      · have hk : ¬ k' = k := by rw [← h1]; exact fun hc => h2 hc.symm
        simp [assocGet, h2, hk, ih]
    · rw [if_neg h1]
      by_cases h2 : kv.1 = k'
      · have hk : ¬ k' = k := by rw [← h2]; exact h1
        simp [assocGet, h2, hk]
      · simp [assocGet, h2, ih]

theorem assocUpd_keys {α : Type} (l : List (String × α)) (k : String)
    (f : α → α) : (assocUpd l k f).map Prod.fst = l.map Prod.fst := by
  induction l with
  | nil => rfl
  | cons kv rest ih =>
    by_cases h : kv.1 = k <;> simp [assocUpd, h] at ih ⊢ <;> exact ih

theorem mem_assocUpd {α : Type} {l : List (String × α)} {k : String}
    {f : α → α} {kv : String × α} (h : kv ∈ assocUpd l k f) :
    ∃ kv0 ∈ l, kv = (if kv0.1 = k then (kv0.1, f kv0.2) else kv0) := by
  unfold assocUpd at h
  obtain ⟨kv0, h0, hEq⟩ := List.mem_map.mp h
  exact ⟨kv0, h0, hEq.symm⟩

theorem assocGet_mem {α : Type} {l : List (String × α)} {k : String} {v : α}
    (h : assocGet l k = some v) : (k, v) ∈ l := by
  induction l with
  | nil => simp [assocGet] at h
  | cons kv rest ih =>
    rw [assocGet] at h
    by_cases h1 : kv.1 = k
    · simp only [h1, if_true, Option.some.injEq] at h
      subst h
      subst h1
      simp
    · simp only [h1, if_false] at h
      exact List.mem_cons_of_mem _ (ih h)

theorem assocGet_append_right {α : Type} (l1 l2 : List (String × α))
    (k : String) (h : assocGet l1 k = none) :
    assocGet (l1 ++ l2) k = assocGet l2 k := by
  induction l1 with
  | nil => simp
  | cons kv rest ih =>
    simp only [assocGet] at h
    by_cases h1 : kv.1 = k
    · simp [h1] at h
    · rw [if_neg h1] at h
      simp only [List.cons_append, assocGet, if_neg h1]
      exact ih h

theorem assocGet_append_left {α : Type} (l1 l2 : List (String × α))
    (k : String) (h : (assocGet l1 k).isSome) :
    assocGet (l1 ++ l2) k = assocGet l1 k := by
  induction l1 with
  | nil => simp [assocGet] at h
  | cons kv rest ih =>
    simp only [assocGet] at h
    simp only [List.cons_append, assocGet]
    by_cases h1 : kv.1 = k
    · simp [h1]
    · rw [if_neg h1] at h
      rw [if_neg h1, if_neg h1]
      exact ih h

/-! ### Claim C1 -/

/-- Claim C1 (code bug): at two present movies that both have an empty cast,
`get_similarity_score` raises `ZeroDivisionError` instead of returning 0 —
the guard `self.cast_members == 0` in `_Vertex.similarity_score` compares a
set with an integer and never fires, so the division by the empty union is
reached. -/
theorem get_similarity_score_zero_division :
    gEmptyCast.item_in_graph "M1" = true ∧
    gEmptyCast.item_in_graph "M2" = true ∧
    gEmptyCast.get_similarity_score "M1" "M2" = .error .zeroDivision := by
  decide

/-! ### Claim C3 -/

/-- Claim C3 (code bug): with both actors present and the recognised key
`'year'`, `filter_by_key` raises `KeyError` whenever no common movie has a
year in the given range: the `else: raise KeyError` of the source is
attached to the `if key == 'rating'` statement and is reached by the
fall-through from the empty `'year'` branch. -/
theorem filter_by_key_year_raises :
    gYearKE.item_in_graph "a1" = true ∧
    gYearKE.item_in_graph "a2" = true ∧
    gYearKE.filter_by_key "a1" "a2" "year" 1985 1991 mvYearKE =
      .error .keyError := by
  decide

/-! ### Claim C4 -/

/-- Claim C4 (code bug): narrowing the rating range from `[0, 10]` to the
contained range `[5, 5]` turns the filtered result from the empty sequence
(unreachable) into a two-vertex path, i.e. narrowing the filter SHORTENS the
returned path. The call site in `shortest_path_bfs_filtered` passes
`(upper, lower)` into `filter_by_key`'s `(lower, upper)` parameters, so the
effective test is `upper ≤ attribute ≤ lower`, which is empty for a proper
range and nonempty for a degenerate one. The unfiltered path has length 2. -/
theorem filtered_narrowing_shortens :
    gSwap.shortest_path_bfs_filtered "A" "B" "rating" 0 10 mvSwap = .ok [] ∧
    gSwap.shortest_path_bfs_filtered "A" "B" "rating" 5 5 mvSwap =
      .ok ["A", "B"] ∧
    (0 : Rat) ≤ 5 ∧ (5 : Rat) ≤ 5 ∧ (5 : Rat) ≤ 10 ∧
    gSwap.shortest_path_bfs "A" "B" = .ok ["A", "B"] := by
  decide

/-! ### Claim C8 -/

/-- Claim C8: `add_vertex` is idempotent — inserting an already-present key
with any kind leaves the graph unchanged, so the vertex keeps its original
kind (first kind wins) and the adjacency relation is untouched. -/
theorem add_vertex_idempotent (g : Graph) (item kind : String)
    (h : g.item_in_graph item = true) :
    g.add_vertex item kind = g ∧
    (g.add_vertex item kind).findV item = g.findV item ∧
    (∀ a b, (g.add_vertex item kind).adjacent a b = g.adjacent a b) := by
  have he : g.add_vertex item kind = g := by
    unfold Graph.add_vertex
    simp [h]
  exact ⟨he, by rw [he], fun a b => by rw [he]⟩

theorem add_vertex_idempotent_witness :
    gIso.item_in_graph "A" = true ∧ gIso.add_vertex "A" "movie" = gIso :=
  ⟨by decide, (add_vertex_idempotent gIso "A" "movie" (by decide)).1⟩

/-! ### Claim C10 -/

/-- Claim C10: each mutating operation checks key presence before mutating,
so when a required key is absent it raises `ValueError` with the graph left
exactly as it was; and whenever one of them signals an error, the returned
graph is the unchanged input graph. -/
theorem mutations_atomic_on_failure (g : Graph) (item1 item2 actor movie : String)
    (actors : List String) (info : Rat × Rat × Rat) :
    (¬ (g.item_in_graph item1 = true ∧ g.item_in_graph item2 = true) →
      g.add_edge item1 item2 = (g, some .valueError)) ∧
    ((g.add_edge item1 item2).2.isSome → (g.add_edge item1 item2).1 = g) ∧
    (¬ g.item_in_graph actor = true →
      g.add_appearences actor movie = (g, some .valueError)) ∧
    ((g.add_appearences actor movie).2.isSome →
      (g.add_appearences actor movie).1 = g) ∧
    (¬ g.item_in_graph movie = true →
      g.add_movie_info movie actors info = (g, some .valueError)) ∧
    ((g.add_movie_info movie actors info).2.isSome →
      (g.add_movie_info movie actors info).1 = g) := by
  refine ⟨?_, ?_, ?_, ?_, ?_, ?_⟩
  · intro hc
    unfold Graph.add_edge
    simp [hc]
  · intro hs
    by_cases hc : g.item_in_graph item1 = true ∧ g.item_in_graph item2 = true
    · unfold Graph.add_edge at hs
      simp [hc] at hs
    · unfold Graph.add_edge
      simp [hc]
  · intro hc
    unfold Graph.add_appearences
    simp [hc]
  · intro hs
    by_cases hc : g.item_in_graph actor = true
    · unfold Graph.add_appearences at hs
      simp [hc] at hs
    · unfold Graph.add_appearences
      simp [hc]
  · intro hc
    unfold Graph.add_movie_info
    simp [hc]
  · intro hs
    by_cases hc : g.item_in_graph movie = true
    · unfold Graph.add_movie_info at hs
      simp [hc] at hs
    · unfold Graph.add_movie_info
      simp [hc]

theorem mutations_atomic_on_failure_witness :
    ¬ ((⟨[]⟩ : Graph).item_in_graph "x" = true ∧
        (⟨[]⟩ : Graph).item_in_graph "y" = true) ∧
    (⟨[]⟩ : Graph).add_edge "x" "y" = (⟨[]⟩, some .valueError) :=
  ⟨by decide,
    (mutations_atomic_on_failure ⟨[]⟩ "x" "y" "x" "y" [] (0, 0, 0)).1
      (by decide)⟩

/-! ### Claim C7 -/

theorem mem_linsert (l : List String) (x y : String) :
    y ∈ linsert l x ↔ y ∈ l ∨ y = x := by
  unfold linsert
  by_cases h : x ∈ l
  · rw [if_pos h]
    constructor
    · exact Or.inl
    · rintro (hy | rfl)
      · exact hy
      · exact h
  · rw [if_neg h]
    simp

theorem linsert_nodup {l : List String} (h : l.Nodup) (x : String) :
    (linsert l x).Nodup := by
  unfold linsert
  by_cases hx : x ∈ l
  · rwa [if_pos hx]
  · rw [if_neg hx]
    simp [List.nodup_append, h, hx]

theorem assocGet_isSome_iff {α : Type} (l : List (String × α)) (k : String) :
    (assocGet l k).isSome = true ↔ k ∈ l.map Prod.fst := by
  induction l with
  | nil => simp [assocGet]
  | cons kv rest ih =>
    simp only [assocGet, List.map_cons, List.mem_cons]
    by_cases h1 : kv.1 = k
    · simp [h1]
    · have hk : ¬ k = kv.1 := fun hc => h1 hc.symm
      simp [h1, hk, ih]

theorem item_in_graph_iff (g : Graph) (k : String) :
    g.item_in_graph k = true ↔ k ∈ g.keysList :=
  assocGet_isSome_iff g.vertices k

theorem findV_mem {g : Graph} {k : String} {v : Vertex}
    (h : g.findV k = some v) : (k, v) ∈ g.vertices :=
  assocGet_mem h

theorem nbrs_of_findV {g : Graph} {k : String} {v : Vertex}
    (h : g.findV k = some v) : g.nbrs k = v.neighbours := by
  unfold Graph.nbrs
  rw [h]

theorem nbrs_of_absent {g : Graph} {k : String}
    (h : g.findV k = none) : g.nbrs k = [] := by
  unfold Graph.nbrs
  rw [h]

theorem findV_of_absent {g : Graph} {k : String}
    (h : ¬ g.item_in_graph k = true) : g.findV k = none := by
  cases hAG : g.findV k with
  | none => rfl
  | some v =>
    exact absurd (by unfold Graph.item_in_graph; rw [hAG]; rfl) h

theorem contains_iff_mem (l : List String) (x : String) :
    l.contains x = true ↔ x ∈ l := by
  induction l with
  | nil => simp
  | cons y ys ih => simp

theorem add_vertex_present {g : Graph} {item : String} (kind : String)
    (h : g.item_in_graph item = true) : g.add_vertex item kind = g := by
  unfold Graph.add_vertex
  simp [h]

theorem findV_add_vertex {g : Graph} {item : String} (kind : String)
    (h : ¬ g.item_in_graph item = true) (a : String) :
    (g.add_vertex item kind).findV a =
      if a = item then some ⟨item, kind, [], [], [], none⟩
      else g.findV a := by
  unfold Graph.add_vertex
  rw [if_neg h]
  show assocGet (g.vertices ++ [(item, ⟨item, kind, [], [], [], none⟩)]) a =
    if a = item then some ⟨item, kind, [], [], [], none⟩
    else assocGet g.vertices a
  by_cases ha : a = item
  · subst ha
    have hnone : assocGet g.vertices a = none := findV_of_absent h
    rw [if_pos rfl, assocGet_append_right _ _ _ hnone]
    simp [assocGet]
  · rw [if_neg ha]
    cases hAG : assocGet g.vertices a with
    | some v =>
      rw [assocGet_append_left _ _ _ (by rw [hAG]; rfl)]
      exact hAG
    | none =>
      rw [assocGet_append_right _ _ _ hAG]
      simp [assocGet, show ¬ item = a from fun hc => ha hc.symm]

theorem goodG_add_vertex {g : Graph} (hG : GoodG g) (item kind : String) :
    GoodG (g.add_vertex item kind) := by
  by_cases h : g.item_in_graph item = true
  · rwa [add_vertex_present kind h]
  · have hFind := findV_add_vertex kind h
    have hVerts : (g.add_vertex item kind).vertices =
        g.vertices ++ [(item, ⟨item, kind, [], [], [], none⟩)] := by
      unfold Graph.add_vertex
      rw [if_neg h]
    have hKeys : (g.add_vertex item kind).keysList =
        g.keysList ++ [item] := by
      unfold Graph.keysList
      rw [hVerts]
      simp
    have hItemNot : item ∉ g.keysList :=
      fun hc => h ((item_in_graph_iff g item).mpr hc)
    have hNbrs : ∀ a, (g.add_vertex item kind).nbrs a =
        if a = item then [] else g.nbrs a := by
      intro a
      by_cases ha : a = item
      · subst ha
        have hsome : (g.add_vertex a kind).findV a =
            some ⟨a, kind, [], [], [], none⟩ := by
          rw [hFind a]
          simp
        rw [nbrs_of_findV hsome, if_pos rfl]
      · rw [if_neg ha]
        unfold Graph.nbrs
        rw [hFind a, if_neg ha]
    have hNbrsItem : g.nbrs item = [] := nbrs_of_absent (findV_of_absent h)
    refine ⟨?_, ?_, ?_, ?_, ?_, ?_⟩
    · rw [hKeys]
      simp [List.nodup_append, hG.keysNodup, hItemNot]
    · rw [hVerts]
      intro kv hkv
      rcases List.mem_append.mp hkv with hkv | hkv
      · exact hG.itemEq kv hkv
      · simp at hkv
        subst hkv
        rfl
    · rw [hVerts]
      intro kv hkv
      rcases List.mem_append.mp hkv with hkv | hkv
      · exact hG.noSelf kv hkv
      · simp at hkv
        subst hkv
        simp
    · intro a b hb
      rw [hNbrs a] at hb
      by_cases ha : a = item
      · rw [if_pos ha] at hb
        simp at hb
      · rw [if_neg ha] at hb
        have hsym := hG.symm a b hb
        rw [hNbrs b]
        by_cases hbi : b = item
        · subst hbi
          rw [hNbrsItem] at hsym
          simp at hsym
        · rwa [if_neg hbi]
    · rw [hVerts]
      intro kv hkv n hn
      have hsup : ∀ x, g.item_in_graph x = true →
          (g.add_vertex item kind).item_in_graph x = true := by
        intro x hx
        rw [item_in_graph_iff] at hx ⊢
        rw [hKeys]
        exact List.mem_append.mpr (Or.inl hx)
      rcases List.mem_append.mp hkv with hkv | hkv
      · exact hsup n (hG.closed kv hkv n hn)
      · simp at hkv
        subst hkv
        simp at hn
    · rw [hVerts]
      intro kv hkv
      rcases List.mem_append.mp hkv with hkv | hkv
      · exact hG.nbrNodup kv hkv
      · simp at hkv
        subst hkv
        simp

theorem add_edge_findV {g : Graph} {item1 item2 : String} {v1 v2 : Vertex}
    (h1 : g.findV item1 = some v1) (h2 : g.findV item2 = some v2)
    (hne : item1 ≠ item2) (a : String) :
    (g.add_edge item1 item2).1.findV a =
      if a = item1 then
        some { v1 with neighbours := linsert v1.neighbours item2 }
      else if a = item2 then
        some { v2 with neighbours := linsert v2.neighbours item1 }
      else g.findV a := by
  have hp1 : g.item_in_graph item1 = true := by
    unfold Graph.item_in_graph
    rw [h1]
    rfl
  have hp2 : g.item_in_graph item2 = true := by
    unfold Graph.item_in_graph
    rw [h2]
    rfl
  unfold Graph.add_edge
  rw [if_pos ⟨hp1, hp2⟩]
  show assocGet (assocUpd (assocUpd g.vertices item1
      (fun v => { v with neighbours := linsert v.neighbours item2 })) item2
      (fun v => { v with neighbours := linsert v.neighbours item1 })) a =
    if a = item1 then
      some { v1 with neighbours := linsert v1.neighbours item2 }
    else if a = item2 then
      some { v2 with neighbours := linsert v2.neighbours item1 }
    else assocGet g.vertices a
  rw [assocGet_assocUpd, assocGet_assocUpd]
  unfold Graph.findV at h1 h2
  by_cases ha1 : a = item1
  · subst ha1
    simp [hne, h1]
  · by_cases ha2 : a = item2
    · have hne2 : ¬ item2 = item1 := fun hc => hne hc.symm
      simp [ha2, hne2, h2]
    · simp [ha1, ha2]

theorem add_edge_nbrs {g : Graph} {item1 item2 : String} {v1 v2 : Vertex}
    (h1 : g.findV item1 = some v1) (h2 : g.findV item2 = some v2)
    (hne : item1 ≠ item2) (a : String) :
    (g.add_edge item1 item2).1.nbrs a =
      if a = item1 then linsert v1.neighbours item2
      else if a = item2 then linsert v2.neighbours item1
      else g.nbrs a := by
  unfold Graph.nbrs
  rw [add_edge_findV h1 h2 hne a]
  by_cases ha1 : a = item1
  · simp [ha1]
  · by_cases ha2 : a = item2
    · have hne2 : ¬ item2 = item1 := fun hc => hne hc.symm
      simp [ha1, ha2, hne2]
    · simp [ha1, ha2]

theorem add_edge_keys (g : Graph) (item1 item2 : String) :
    (g.add_edge item1 item2).1.keysList = g.keysList := by
  unfold Graph.add_edge
  by_cases hc : g.item_in_graph item1 = true ∧ g.item_in_graph item2 = true
  · rw [if_pos hc]
    unfold Graph.keysList
    show (assocUpd (assocUpd g.vertices item1
        (fun v => { v with neighbours := linsert v.neighbours item2 })) item2
        (fun v => { v with neighbours := linsert v.neighbours item1 })).map
          Prod.fst = g.vertices.map Prod.fst
    rw [assocUpd_keys, assocUpd_keys]
  · rw [if_neg hc]

theorem goodG_add_edge {g : Graph} (hG : GoodG g) (item1 item2 : String)
    (hne : item1 ≠ item2) : GoodG (g.add_edge item1 item2).1 := by
  by_cases hc : g.item_in_graph item1 = true ∧ g.item_in_graph item2 = true
  case neg =>
    have hfail : g.add_edge item1 item2 = (g, some .valueError) := by
      unfold Graph.add_edge
      rw [if_neg hc]
    rw [hfail]
    exact hG
  case pos =>
    obtain ⟨hp1, hp2⟩ := hc
    obtain ⟨v1, h1⟩ := Option.isSome_iff_exists.mp hp1
    obtain ⟨v2, h2⟩ := Option.isSome_iff_exists.mp hp2
    have hK := add_edge_keys g item1 item2
    have hPres : ∀ x, (g.add_edge item1 item2).1.item_in_graph x =
        g.item_in_graph x := by
      intro x
      cases hx : g.item_in_graph x with
      | true =>
        rw [item_in_graph_iff] at hx ⊢
        rwa [hK]
      | false =>
        have hx2 : ¬ g.item_in_graph x = true := by rw [hx]; simp
        have : ¬ (g.add_edge item1 item2).1.item_in_graph x = true := by
          rw [item_in_graph_iff, hK]
          exact fun hc => hx2 ((item_in_graph_iff g x).mpr hc)
        simp at this
        rw [this]
    have hmem : ∀ kv ∈ (g.add_edge item1 item2).1.vertices,
        ∃ kv0 ∈ g.vertices, kv.1 = kv0.1 ∧
          (kv.2 = kv0.2 ∨
           (kv.1 = item1 ∧ kv.2 =
             { kv0.2 with neighbours := linsert kv0.2.neighbours item2 }) ∨
           (kv.1 = item2 ∧ kv.2 =
             { kv0.2 with neighbours := linsert kv0.2.neighbours item1 })) := by
      intro kv hkv
      have hEdge : (g.add_edge item1 item2).1.vertices =
          assocUpd (assocUpd g.vertices item1
            (fun v => { v with neighbours := linsert v.neighbours item2 }))
            item2 (fun v => { v with neighbours := linsert v.neighbours item1 }) := by
        unfold Graph.add_edge
        rw [if_pos ⟨hp1, hp2⟩]
      rw [hEdge] at hkv
      obtain ⟨kv1, hkv1, hEq1⟩ := mem_assocUpd hkv
      obtain ⟨kv0, hkv0, hEq0⟩ := mem_assocUpd hkv1
      refine ⟨kv0, hkv0, ?_⟩
      by_cases e1 : kv0.1 = item1
      · rw [if_pos e1] at hEq0
        have hkv1fst : kv1.1 = kv0.1 := by rw [hEq0]
        have e2 : ¬ kv1.1 = item2 := by
          rw [hkv1fst, e1]
          exact hne
        rw [if_neg e2] at hEq1
        refine ⟨by rw [hEq1, hkv1fst], Or.inr (Or.inl ⟨?_, ?_⟩)⟩
        · rw [hEq1, hkv1fst, e1]
        · rw [hEq1, hEq0]
      · rw [if_neg e1] at hEq0
        by_cases e2 : kv1.1 = item2
        · rw [if_pos e2] at hEq1
          have hkvfst : kv.1 = kv1.1 := by rw [hEq1]
          refine ⟨by rw [hkvfst, hEq0], Or.inr (Or.inr ⟨?_, ?_⟩)⟩
          · rw [hkvfst, e2]
          · rw [hEq1, hEq0]
        · rw [if_neg e2] at hEq1
          exact ⟨by rw [hEq1, hEq0], Or.inl (by rw [hEq1, hEq0])⟩
    have noSelfN : ∀ a, a ∉ g.nbrs a := by
      intro a ha
      cases hAG : g.findV a with
      | none =>
        rw [nbrs_of_absent hAG] at ha
        simp at ha
      | some v =>
        rw [nbrs_of_findV hAG] at ha
        exact hG.noSelf (a, v) (findV_mem hAG) ha
    have hsup : ∀ x y, y ∈ g.nbrs x →
        y ∈ (g.add_edge item1 item2).1.nbrs x := by
      intro x y hy
      rw [add_edge_nbrs h1 h2 hne x]
      by_cases hx1 : x = item1
      · subst hx1
        rw [if_pos rfl]
        rw [nbrs_of_findV h1] at hy
        exact (mem_linsert _ _ _).mpr (Or.inl hy)
      · rw [if_neg hx1]
        by_cases hx2 : x = item2
        · subst hx2
          rw [if_pos rfl]
          rw [nbrs_of_findV h2] at hy
          exact (mem_linsert _ _ _).mpr (Or.inl hy)
        · rwa [if_neg hx2]
    refine ⟨?_, ?_, ?_, ?_, ?_, ?_⟩
    · rw [hK]
      exact hG.keysNodup
    · intro kv hkv
      obtain ⟨kv0, hkv0, hfst, hsnd⟩ := hmem kv hkv
      have hIt := hG.itemEq kv0 hkv0
      rcases hsnd with hs | ⟨_, hs⟩ | ⟨_, hs⟩ <;> rw [hs, hfst] <;> exact hIt
    · intro kv hkv
      obtain ⟨kv0, hkv0, hfst, hsnd⟩ := hmem kv hkv
      have hNS := hG.noSelf kv0 hkv0
      rcases hsnd with hs | ⟨he, hs⟩ | ⟨he, hs⟩
      · rw [hs, hfst]
        exact hNS
      · rw [hs]
        intro hmm
        rcases (mem_linsert _ _ _).mp hmm with hmm | hmm
        · exact hNS (by rw [← hfst]; exact hmm)
        · exact hne (he.symm.trans hmm)
      · rw [hs]
        intro hmm
        rcases (mem_linsert _ _ _).mp hmm with hmm | hmm
        · exact hNS (by rw [← hfst]; exact hmm)
        · exact hne (hmm.symm.trans he)
    · intro a b hb
      rw [add_edge_nbrs h1 h2 hne a] at hb
      by_cases ha1 : a = item1
      · rw [if_pos ha1] at hb
        rcases (mem_linsert _ _ _).mp hb with hb | hb
        · rw [← nbrs_of_findV h1, ← ha1] at hb
          exact hsup b a (hG.symm a b hb)
        · subst hb
          rw [add_edge_nbrs h1 h2 hne b, if_neg (fun hcc => hne hcc.symm),
            if_pos rfl]
          exact (mem_linsert _ _ _).mpr (Or.inr ha1)
      · rw [if_neg ha1] at hb
        by_cases ha2 : a = item2
        · rw [if_pos ha2] at hb
          rcases (mem_linsert _ _ _).mp hb with hb | hb
          · rw [← nbrs_of_findV h2, ← ha2] at hb
            exact hsup b a (hG.symm a b hb)
          · subst hb
            rw [add_edge_nbrs h1 h2 hne b, if_pos rfl]
            exact (mem_linsert _ _ _).mpr (Or.inr ha2)
        · rw [if_neg ha2] at hb
          exact hsup b a (hG.symm a b hb)
    · intro kv hkv n hn
      obtain ⟨kv0, hkv0, hfst, hsnd⟩ := hmem kv hkv
      rw [hPres n]
      rcases hsnd with hs | ⟨_, hs⟩ | ⟨_, hs⟩
      · exact hG.closed kv0 hkv0 n (hs ▸ hn)
      · rw [hs] at hn
        rcases (mem_linsert _ _ _).mp hn with hn | hn
        · exact hG.closed kv0 hkv0 n hn
        · subst hn
          exact hp2
      · rw [hs] at hn
        rcases (mem_linsert _ _ _).mp hn with hn | hn
        · exact hG.closed kv0 hkv0 n hn
        · subst hn
          exact hp1
    · intro kv hkv
      obtain ⟨kv0, hkv0, hfst, hsnd⟩ := hmem kv hkv
      have hND := hG.nbrNodup kv0 hkv0
      rcases hsnd with hs | ⟨_, hs⟩ | ⟨_, hs⟩ <;> rw [hs]
      · exact hND
      · exact linsert_nodup hND item2
      · exact linsert_nodup hND item1

theorem built_goodG {g : Graph} (hB : Built g) : GoodG g := by
  induction hB with
  | empty =>
    refine ⟨by simp [Graph.keysList], by simp, by simp, ?_, by simp, by simp⟩
    intro a b hb
    simp [Graph.nbrs, Graph.findV, assocGet] at hb
  | vertex item kind _ ih => exact goodG_add_vertex ih item kind
  | edge item1 item2 _ hne ih => exact goodG_add_edge ih item1 item2 hne

/-- Claim C7: in every graph reachable by `add_vertex`/`add_edge` calls
(with `add_edge`'s precondition `item1 != item2`), no vertex lists itself as
a neighbour and adjacency is symmetric; consequently `adjacent a b` equals
`adjacent b a` for all keys, and `adjacent` returns `false` (never an
error) when either key is absent. -/
theorem built_graph_invariants (g : Graph) (hB : Built g) :
    (∀ kv ∈ g.vertices, kv.1 ∉ kv.2.neighbours) ∧
    (∀ a b, b ∈ g.nbrs a → a ∈ g.nbrs b) ∧
    (∀ a b, g.adjacent a b = g.adjacent b a) ∧
    (∀ a b, ¬ (g.item_in_graph a = true ∧ g.item_in_graph b = true) →
      g.adjacent a b = false) := by
  have hG := built_goodG hB
  refine ⟨hG.noSelf, hG.symm, ?_, ?_⟩
  · intro a b
    unfold Graph.adjacent
    by_cases hab : g.item_in_graph a = true ∧ g.item_in_graph b = true
    · rw [if_pos hab, if_pos ⟨hab.2, hab.1⟩]
      have hiff : (g.nbrs a).contains b = true ↔
          (g.nbrs b).contains a = true := by
        rw [contains_iff_mem, contains_iff_mem]
        exact ⟨hG.symm a b, hG.symm b a⟩
      cases hx : (g.nbrs a).contains b <;> cases hy : (g.nbrs b).contains a <;>
        simp_all
    · rw [if_neg hab, if_neg (fun hcc => hab ⟨hcc.2, hcc.1⟩)]
  · intro a b hab
    unfold Graph.adjacent
    rw [if_neg hab]

theorem built_graph_invariants_witness :
    gBuiltW.adjacent "A" "B" = gBuiltW.adjacent "B" "A" :=
  (built_graph_invariants gBuiltW
    (Built.edge "A" "B"
      (Built.vertex "B" "actor" (Built.vertex "A" "actor" Built.empty))
      (by decide))).2.2.1 "A" "B"

/-! ### Claim C9 -/

theorem insertDescBy_split {α : Type} (f : α → Rat) (x : α) (l : List α)
    (hsorted : l.Pairwise (fun a b => f b ≤ f a)) :
    ∃ l1 l2, l = l1 ++ l2 ∧ insertDescBy f x l = l1 ++ x :: l2 ∧
      (∀ y ∈ l1, f x < f y) ∧ (∀ z ∈ l2, f z ≤ f x) := by
  induction l with
  | nil => exact ⟨[], [], rfl, rfl, by simp, by simp⟩
  | cons y ys ih =>
    by_cases h : f y ≤ f x
    · refine ⟨[], y :: ys, rfl, ?_, by simp, ?_⟩
      · unfold insertDescBy
        rw [if_pos h]
        rfl
      · intro z hz
        rcases List.mem_cons.mp hz with rfl | hz
        · exact h
        · exact le_trans ((List.pairwise_cons.mp hsorted).1 z hz) h
    · obtain ⟨l1, l2, hL, hI, hgt, hle⟩ :=
        ih (List.pairwise_cons.mp hsorted).2
      refine ⟨y :: l1, l2, by rw [List.cons_append, ← hL], ?_, ?_, hle⟩
      · unfold insertDescBy
        rw [if_neg h, hI]
        rfl
      · intro z hz
        rcases List.mem_cons.mp hz with rfl | hz
        · exact lt_of_not_le h
        · exact hgt z hz

theorem insertDescBy_perm {α : Type} (f : α → Rat) (x : α) (l : List α) :
    (insertDescBy f x l).Perm (x :: l) := by
  induction l with
  | nil => exact List.Perm.refl _
  | cons y ys ih =>
    unfold insertDescBy
    by_cases h : f y ≤ f x
    · rw [if_pos h]
    · rw [if_neg h]
      exact (ih.cons y).trans (List.Perm.swap x y ys)

theorem sortDescBy_perm {α : Type} (f : α → Rat) (l : List α) :
    (sortDescBy f l).Perm l := by
  induction l with
  | nil => exact .refl _
  | cons x xs ih =>
    unfold sortDescBy
    exact (insertDescBy_perm f x (sortDescBy f xs)).trans (ih.cons x)

theorem sortDescBy_sorted {α : Type} (f : α → Rat) (l : List α) :
    (sortDescBy f l).Pairwise (fun a b => f b ≤ f a) := by
  induction l with
  | nil => simp [sortDescBy]
  | cons x xs ih =>
    unfold sortDescBy
    obtain ⟨l1, l2, hL, hI, hgt, hle⟩ := insertDescBy_split f x _ ih
    rw [hI]
    rw [hL, List.pairwise_append] at ih
    obtain ⟨p1, p2, cross⟩ := ih
    rw [List.pairwise_append]
    refine ⟨p1, ?_, ?_⟩
    · rw [List.pairwise_cons]
      exact ⟨hle, p2⟩
    · intro a ha b hb
      rcases List.mem_cons.mp hb with rfl | hb
      · exact le_of_lt (hgt a ha)
      · exact cross a ha b hb

theorem sortDescBy_stable_pairwise {α : Type} (f : α → Rat) (gidx : α → Nat)
    (l : List α) (hl : l.Pairwise (fun a b => gidx a < gidx b)) :
    (sortDescBy f l).Pairwise
      (fun a b => f b < f a ∨ (f a = f b ∧ gidx a < gidx b)) := by
  induction l with
  | nil => simp [sortDescBy]
  | cons x xs ih =>
    have hx : ∀ z ∈ xs, gidx x < gidx z := (List.pairwise_cons.mp hl).1
    have ihs := ih (List.pairwise_cons.mp hl).2
    unfold sortDescBy
    have hsorted := sortDescBy_sorted f xs
    obtain ⟨l1, l2, hL, hI, hgt, hle⟩ := insertDescBy_split f x _ hsorted
    rw [hI]
    rw [hL, List.pairwise_append] at ihs
    obtain ⟨p1, p2, cross⟩ := ihs
    rw [List.pairwise_append]
    refine ⟨p1, ?_, ?_⟩
    · rw [List.pairwise_cons]
      constructor
      · intro z hz
        have hzxs : z ∈ xs := by
          have hzs : z ∈ sortDescBy f xs := by
            rw [hL]
            exact List.mem_append.mpr (Or.inr hz)
          exact (sortDescBy_perm f xs).mem_iff.mp hzs
        rcases lt_or_eq_of_le (hle z hz) with hlt | heq
        · exact Or.inl hlt
        · exact Or.inr ⟨heq.symm, hx z hzxs⟩
      · exact p2
    · intro a ha b hb
      rcases List.mem_cons.mp hb with rfl | hb
      · exact Or.inl (hgt a ha)
      · exact cross a ha b hb

theorem nodup_pairwise_indexOf (l : List String) (h : l.Nodup) :
    l.Pairwise (fun a b => l.indexOf a < l.indexOf b) := by
  induction l with
  | nil => simp
  | cons a l ih =>
    rw [List.nodup_cons] at h
    rw [List.pairwise_cons]
    constructor
    · intro b hb
      have hba : b ≠ a := fun hc => h.1 (hc ▸ hb)
      rw [List.indexOf_cons_self, List.indexOf_cons_ne l hba.symm]
      exact Nat.succ_pos _
    · refine (ih h.2).imp_of_mem ?_
      intro x y hx hy hxy
      have hxa : x ≠ a := fun hc => h.1 (hc ▸ hx)
      have hya : y ≠ a := fun hc => h.1 (hc ▸ hy)
      rw [List.indexOf_cons_ne l hxa.symm, List.indexOf_cons_ne l hya.symm]
      exact Nat.succ_lt_succ hxy

theorem filterMap_keys_sublist {β : Type} (l : List (String × MovieRec))
    (F : String × MovieRec → Option (String × β))
    (hF : ∀ mv e, F mv = some e → e.1 = mv.1) :
    ((l.filterMap F).map Prod.fst).Sublist (l.map Prod.fst) := by
  induction l with
  | nil => simp
  | cons mv rest ih =>
    rw [List.filterMap_cons]
    cases hmv : F mv with
    | none => exact ih.cons mv.1
    | some e =>
      rw [List.map_cons, List.map_cons, hF mv e hmv]
      exact ih.cons₂ mv.1

theorem simVal_pos_ok (movies : List (String × MovieRec)) (m1 m2 : String)
    (h : 0 < simVal movies m1 m2) :
    get_similarity_score_dict movies m1 m2 = .ok (simVal movies m1 m2) := by
  unfold simVal at h ⊢
  cases hg : get_similarity_score_dict movies m1 m2 with
  | ok v => simp [Except.toOption]
  | error e => rw [hg] at h; simp [Except.toOption] at h

theorem filtVal_true_ok (movies : List (String × MovieRec)) (m key : String)
    (lower upper : Rat) (h : filtVal movies m key lower upper = true) :
    similarity_filter movies m key lower upper = .ok true := by
  unfold filtVal at h
  cases hg : similarity_filter movies m key lower upper with
  | ok b =>
    rw [hg] at h
    simp [Except.toOption] at h
    rw [h]
  | error e =>
    rw [hg] at h
    simp [Except.toOption] at h

theorem filtVal_of_ok_false (movies : List (String × MovieRec))
    (m key : String) (lower upper : Rat)
    (h : similarity_filter movies m key lower upper = .ok false) :
    filtVal movies m key lower upper = false := by
  unfold filtVal
  rw [h]
  rfl

/-- The shared shape of both branches of `get_recommendations`: sort the
accumulated scores descending (stably), project the movie names and truncate
to `limit`. -/
theorem recs_seq_spec (movies : List (String × MovieRec)) (input : String)
    (limit : Nat) (recs : List (String × Rat))
    (hval : ∀ e ∈ recs, e.2 = simVal movies input e.1)
    (hidx : recs.Pairwise (fun a b =>
      (movies.map Prod.fst).indexOf a.1 < (movies.map Prod.fst).indexOf b.1)) :
    (((sortDescBy Prod.snd recs).map Prod.fst).take limit).length ≤ limit ∧
    (∀ m ∈ ((sortDescBy Prod.snd recs).map Prod.fst).take limit,
      ∃ e ∈ recs, e.1 = m) ∧
    (((sortDescBy Prod.snd recs).map Prod.fst).take limit).Pairwise
      (fun a b =>
        simVal movies input b < simVal movies input a ∨
        (simVal movies input a = simVal movies input b ∧
          (movies.map Prod.fst).indexOf a < (movies.map Prod.fst).indexOf b)) := by
  refine ⟨List.length_take_le _ _, ?_, ?_⟩
  · intro m hm
    have hm2 : m ∈ (sortDescBy Prod.snd recs).map Prod.fst :=
      List.take_subset _ _ hm
    obtain ⟨e, he, hfst⟩ := List.mem_map.mp hm2
    exact ⟨e, (sortDescBy_perm Prod.snd recs).mem_iff.mp he, hfst⟩
  · have hstable := sortDescBy_stable_pairwise Prod.snd
      (fun e => (movies.map Prod.fst).indexOf e.1) recs hidx
    have hmemS : ∀ e ∈ sortDescBy Prod.snd recs, e.2 = simVal movies input e.1 :=
      fun e he => hval e ((sortDescBy_perm Prod.snd recs).mem_iff.mp he)
    have hconv : (sortDescBy Prod.snd recs).Pairwise (fun a b =>
        simVal movies input b.1 < simVal movies input a.1 ∨
        (simVal movies input a.1 = simVal movies input b.1 ∧
          (movies.map Prod.fst).indexOf a.1 <
            (movies.map Prod.fst).indexOf b.1)) := by
      refine hstable.imp_of_mem ?_
      intro a b ha hb hr
      rw [hmemS a ha, hmemS b hb] at hr
      exact hr
    have hmap : ((sortDescBy Prod.snd recs).map Prod.fst).Pairwise
        (fun a b =>
          simVal movies input b < simVal movies input a ∨
          (simVal movies input a = simVal movies input b ∧
            (movies.map Prod.fst).indexOf a <
              (movies.map Prod.fst).indexOf b)) :=
      List.pairwise_map.mpr hconv
    exact hmap.sublist (List.take_sublist _ _)

/-- Properties shared by both branches of `get_recommendations`, stated for
an abstract accumulated list `recs`. -/
theorem branch_props (movies : List (String × MovieRec)) (input : String)
    (limit : Nat) (recs : List (String × Rat)) (extraP : String → Prop)
    (hkeys : (movies.map Prod.fst).Nodup)
    (hchar : ∀ e ∈ recs, e.1 ∈ movies.map Prod.fst ∧ e.1 ≠ input ∧
      0 < simVal movies input e.1 ∧ e.2 = simVal movies input e.1 ∧
      extraP e.1)
    (hsub : (recs.map Prod.fst).Sublist (movies.map Prod.fst)) :
    (((sortDescBy Prod.snd recs).map Prod.fst).take limit).length ≤ limit ∧
    input ∉ ((sortDescBy Prod.snd recs).map Prod.fst).take limit ∧
    (∀ m ∈ ((sortDescBy Prod.snd recs).map Prod.fst).take limit,
      m ∈ movies.map Prod.fst ∧ m ≠ input ∧
      (∃ sim, get_similarity_score_dict movies input m = .ok sim ∧
        0 < sim) ∧ extraP m) ∧
    (((sortDescBy Prod.snd recs).map Prod.fst).take limit).Pairwise
      (fun a b =>
        simVal movies input b < simVal movies input a ∨
        (simVal movies input a = simVal movies input b ∧
          (movies.map Prod.fst).indexOf a <
            (movies.map Prod.fst).indexOf b)) := by
  have hidx : recs.Pairwise (fun a b =>
      (movies.map Prod.fst).indexOf a.1 <
        (movies.map Prod.fst).indexOf b.1) := by
    have hkp := nodup_pairwise_indexOf _ hkeys
    have hmp := hkp.sublist hsub
    exact List.Pairwise.of_map Prod.fst (fun a b h => h) hmp
  have hval : ∀ e ∈ recs, e.2 = simVal movies input e.1 :=
    fun e he => (hchar e he).2.2.2.1
  obtain ⟨hlen, hmem, hpw⟩ := recs_seq_spec movies input limit recs hval hidx
  refine ⟨hlen, ?_, ?_, hpw⟩
  · intro hin
    obtain ⟨e, he, hfst⟩ := hmem input hin
    exact (hchar e he).2.1 hfst
  · intro m hm
    obtain ⟨e, he, hfst⟩ := hmem m hm
    obtain ⟨hmem2, hne, hpos, _, hex⟩ := hchar e he
    subst hfst
    exact ⟨hmem2, hne,
      ⟨simVal movies input e.1, simVal_pos_ok movies input e.1 hpos, hpos⟩,
      hex⟩

theorem recsPlain_char (movies : List (String × MovieRec)) (input : String) :
    ∀ e ∈ recsPlain movies input, e.1 ∈ movies.map Prod.fst ∧
      e.1 ≠ input ∧ 0 < simVal movies input e.1 ∧
      e.2 = simVal movies input e.1 ∧ True := by
  intro e he
  unfold recsPlain at he
  obtain ⟨mv, hmv, hsome⟩ := List.mem_filterMap.mp he
  by_cases hc : mv.1 ≠ input ∧ 0 < simVal movies input mv.1
  · rw [if_pos hc] at hsome
    cases hsome
    exact ⟨List.mem_map.mpr ⟨mv, hmv, rfl⟩, hc.1, hc.2, rfl, trivial⟩
  · rw [if_neg hc] at hsome
    cases hsome

theorem recsPlain_sublist (movies : List (String × MovieRec))
    (input : String) :
    ((recsPlain movies input).map Prod.fst).Sublist
      (movies.map Prod.fst) := by
  unfold recsPlain
  apply filterMap_keys_sublist
  intro mv e hsome
  by_cases hc : mv.1 ≠ input ∧ 0 < simVal movies input mv.1
  · rw [if_pos hc] at hsome
    cases hsome
    rfl
  · rw [if_neg hc] at hsome
    cases hsome

theorem recsFilt_char (movies : List (String × MovieRec))
    (input key : String) (lower upper : Rat) :
    ∀ e ∈ recsFilt movies input key lower upper,
      e.1 ∈ movies.map Prod.fst ∧ e.1 ≠ input ∧
      0 < simVal movies input e.1 ∧ e.2 = simVal movies input e.1 ∧
      filtVal movies e.1 key lower upper = true := by
  intro e he
  unfold recsFilt at he
  obtain ⟨mv, hmv, hsome⟩ := List.mem_filterMap.mp he
  by_cases hc : mv.1 ≠ input ∧ filtVal movies mv.1 key lower upper ∧
      0 < simVal movies input mv.1
  · rw [if_pos hc] at hsome
    cases hsome
    exact ⟨List.mem_map.mpr ⟨mv, hmv, rfl⟩, hc.1, hc.2.2, rfl, hc.2.1⟩
  · rw [if_neg hc] at hsome
    cases hsome

theorem recsFilt_sublist (movies : List (String × MovieRec))
    (input key : String) (lower upper : Rat) :
    ((recsFilt movies input key lower upper).map Prod.fst).Sublist
      (movies.map Prod.fst) := by
  unfold recsFilt
  apply filterMap_keys_sublist
  intro mv e hsome
  by_cases hc : mv.1 ≠ input ∧ filtVal movies mv.1 key lower upper ∧
      0 < simVal movies input mv.1
  · rw [if_pos hc] at hsome
    cases hsome
    rfl
  · rw [if_neg hc] at hsome
    cases hsome

/-- Claim C9: for a present target movie and a recognised (or absent)
attribute filter, `get_recommendations` returns a sequence that excludes the
target, contains only present movies with strictly positive similarity (and,
under a filter, only movies whose attribute passes `similarity_filter`), is
sorted by descending similarity with ties broken by the movies-dict
insertion order, has at most `limit` entries, and is empty without raising
when the filter excludes every candidate; it raises `ValueError` if the
target is absent or a supplied filter key is unrecognised. -/
theorem get_recommendations_spec (movies : List (String × MovieRec))
    (input_movie : String) (limit : Nat) (key : String)
    (thresholds : Rat × Rat) (hkeys : (movies.map Prod.fst).Nodup) :
    ((assocGet movies input_movie).isNone = true →
      get_recommendations movies input_movie limit key thresholds =
        .error .valueError) ∧
    ((assocGet movies input_movie).isNone = false → key ≠ "" →
      key ≠ "rating" → key ≠ "release date" →
      get_recommendations movies input_movie limit key thresholds =
        .error .valueError) ∧
    ((assocGet movies input_movie).isNone = false →
      (key = "" ∨ key = "rating" ∨ key = "release date") →
      ∃ r, get_recommendations movies input_movie limit key thresholds =
          .ok r ∧
        r.seq.length ≤ limit ∧
        input_movie ∉ r.seq ∧
        (∀ m ∈ r.seq, m ∈ movies.map Prod.fst ∧ m ≠ input_movie ∧
          (∃ sim, get_similarity_score_dict movies input_movie m = .ok sim ∧
            0 < sim) ∧
          (key ≠ "" →
            similarity_filter movies m key thresholds.1 thresholds.2 =
              .ok true)) ∧
        r.seq.Pairwise (fun a b =>
          simVal movies input_movie b < simVal movies input_movie a ∨
          (simVal movies input_movie a = simVal movies input_movie b ∧
            (movies.map Prod.fst).indexOf a <
              (movies.map Prod.fst).indexOf b)) ∧
        ((key = "rating" ∨ key = "release date") →
          (∀ m ∈ movies.map Prod.fst,
            similarity_filter movies m key thresholds.1 thresholds.2 =
              .ok false) →
          r.seq = [])) := by
  refine ⟨?_, ?_, ?_⟩
  · intro habs
    unfold get_recommendations
    rw [habs]
    rfl
  · intro hpres hk1 hk2 hk3
    have hc1 : ¬ ((assocGet movies input_movie).isNone = true) := by
      rw [hpres]
      exact Bool.false_ne_true
    unfold get_recommendations
    rw [if_neg hc1, if_neg hk1, if_neg (by simp [hk2, hk3])]
  · intro hpres hkey
    have hc1 : ¬ ((assocGet movies input_movie).isNone = true) := by
      rw [hpres]
      exact Bool.false_ne_true
    rcases hkey with hkey | hkey2
    · subst hkey
      refine ⟨.plain (((sortDescBy Prod.snd
          (recsPlain movies input_movie)).map Prod.fst).take limit)
          (recsPlain movies input_movie), ?_, ?_⟩
      · unfold get_recommendations
        rw [if_neg hc1, if_pos rfl]
        rfl
      · obtain ⟨hlen, hnotin, hmem, hpw⟩ :=
          branch_props movies input_movie limit
            (recsPlain movies input_movie) (fun _ => True) hkeys
            (recsPlain_char movies input_movie)
            (recsPlain_sublist movies input_movie)
        refine ⟨hlen, hnotin, ?_, hpw, ?_⟩
        · intro m hm
          obtain ⟨h1, h2, h3, _⟩ := hmem m hm
          exact ⟨h1, h2, h3, fun hk => absurd rfl hk⟩
        · intro hk _
          rcases hk with hk | hk <;> exact absurd hk (by decide)
    · have hck1 : ¬ key = "" := by
        rcases hkey2 with hk | hk <;> rw [hk] <;> decide
      refine ⟨.withAttr ((((sortDescBy Prod.snd
            (recsFilt movies input_movie key thresholds.1
              thresholds.2)).map Prod.fst).take limit).map (fun m =>
            (m, if key = "rating" then
                  ((assocGet movies m).map MovieRec.rating).getD 0
                else ((assocGet movies m).map MovieRec.year).getD 0)))
          (recsFilt movies input_movie key thresholds.1 thresholds.2),
          ?_, ?_⟩
      · unfold get_recommendations
        rw [if_neg hc1, if_neg hck1, if_pos hkey2]
        rfl
      · have hseq : (RecResult.withAttr ((((sortDescBy Prod.snd
            (recsFilt movies input_movie key thresholds.1
              thresholds.2)).map Prod.fst).take limit).map (fun m =>
            (m, if key = "rating" then
                  ((assocGet movies m).map MovieRec.rating).getD 0
                else ((assocGet movies m).map MovieRec.year).getD 0)))
          (recsFilt movies input_movie key thresholds.1
            thresholds.2)).seq =
            ((sortDescBy Prod.snd (recsFilt movies input_movie key
              thresholds.1 thresholds.2)).map Prod.fst).take limit := by
          simp only [RecResult.seq, List.map_map]
          have hid : (Prod.fst ∘ fun m : String =>
              (m, if key = "rating" then
                    ((assocGet movies m).map MovieRec.rating).getD 0
                  else ((assocGet movies m).map MovieRec.year).getD 0)) =
              id := rfl
          rw [hid, List.map_id]
        rw [hseq]
        obtain ⟨hlen, hnotin, hmem, hpw⟩ :=
          branch_props movies input_movie limit
            (recsFilt movies input_movie key thresholds.1 thresholds.2)
            (fun m => filtVal movies m key thresholds.1 thresholds.2 = true)
            hkeys
            (recsFilt_char movies input_movie key thresholds.1 thresholds.2)
            (recsFilt_sublist movies input_movie key thresholds.1
              thresholds.2)
        refine ⟨hlen, hnotin, ?_, hpw, ?_⟩
        · intro m hm
          obtain ⟨h1, h2, h3, h4⟩ := hmem m hm
          exact ⟨h1, h2, h3,
            fun _ => filtVal_true_ok movies m key thresholds.1 thresholds.2 h4⟩
        · intro _ hall
          have hnil : recsFilt movies input_movie key thresholds.1
              thresholds.2 = [] := by
            unfold recsFilt
            rw [List.filterMap_eq_nil_iff]
            intro mv hmv
            have hfv : filtVal movies mv.1 key thresholds.1 thresholds.2 =
                false :=
              filtVal_of_ok_false movies mv.1 key thresholds.1 thresholds.2
                (hall mv.1 (List.mem_map.mpr ⟨mv, hmv, rfl⟩))
            rw [if_neg (by rw [hfv]; simp)]
          rw [hnil]
          simp [sortDescBy]

theorem get_recommendations_spec_witness :
    (mvRecs.map Prod.fst).Nodup ∧
    ((assocGet mvRecs "M1").isNone = false →
      ("rating" = "" ∨ "rating" = "rating" ∨ "rating" = "release date") →
      ∃ r, get_recommendations mvRecs "M1" 2 "rating" (6, 9) = .ok r ∧
        r.seq.length ≤ 2 ∧
        "M1" ∉ r.seq ∧
        (∀ m ∈ r.seq, m ∈ mvRecs.map Prod.fst ∧ m ≠ "M1" ∧
          (∃ sim, get_similarity_score_dict mvRecs "M1" m = .ok sim ∧
            0 < sim) ∧
          ("rating" ≠ "" →
            similarity_filter mvRecs m "rating" (6, 9).1 (6, 9).2 =
              .ok true)) ∧
        r.seq.Pairwise (fun a b =>
          simVal mvRecs "M1" b < simVal mvRecs "M1" a ∨
          (simVal mvRecs "M1" a = simVal mvRecs "M1" b ∧
            (mvRecs.map Prod.fst).indexOf a <
              (mvRecs.map Prod.fst).indexOf b)) ∧
        (("rating" = "rating" ∨ "rating" = "release date") →
          (∀ m ∈ mvRecs.map Prod.fst,
            similarity_filter mvRecs m "rating" (6, 9).1 (6, 9).2 =
              .ok false) →
          r.seq = [])) :=
  ⟨by decide,
    (get_recommendations_spec mvRecs "M1" 2 "rating" (6, 9) (by decide)).2.2⟩

/-! ### BFS metatheory (Claims C5, C6, C2) -/

theorem walk_zero {g : Graph} {a b : String} (h : WalkN g a b 0) : a = b := by
  cases h
  rfl

theorem walk_snoc {g : Graph} {a b c : String} {n : Nat}
    (h : WalkN g a b n) (hc : c ∈ g.nbrs b) : WalkN g a c (n + 1) := by
  induction h with
  | nil a => exact WalkN.cons hc (WalkN.nil c)
  | cons hab _ ih => exact WalkN.cons hab (ih hc)

theorem walk_trans {g : Graph} {a b c : String} {m n : Nat}
    (h1 : WalkN g a b m) (h2 : WalkN g b c n) : WalkN g a c (m + n) := by
  induction h1 with
  | nil => simpa using h2
  | @cons a x b2 m2 hab _ ih =>
    have harith : m2 + 1 + n = (m2 + n) + 1 := by omega
    rw [harith]
    exact WalkN.cons hab (ih h2)

theorem exists_least_of_mem {S : Set Nat} {n : Nat} (h : n ∈ S) :
    ∃ m, IsLeast S m := by
  induction n using Nat.strong_induction_on with
  | _ n ih =>
    by_cases hall : ∀ k < n, k ∉ S
    · exact ⟨n, h, fun k hk => le_of_not_lt (fun hlt => hall k hlt hk)⟩
    · push_neg at hall
      obtain ⟨k, hk, hkS⟩ := hall
      exact ih k hk hkS

theorem mem_freshL {g : Graph} {c : String} {V : List String} {y : String} :
    y ∈ freshL g c V ↔ y ∈ g.nbrs c ∧ y ∉ V := by
  simp [freshL]

theorem wf_nbrs_nodup {g : Graph} (hWF : g.WF) (c : String) :
    (g.nbrs c).Nodup ∧ ∀ y ∈ g.nbrs c, g.item_in_graph y = true := by
  unfold Graph.nbrs
  cases hF : g.findV c with
  | none => simp
  | some v => exact hWF (c, v) (findV_mem hF)

theorem pairwise_of_total {α : Type} (R : α → α → Prop)
    (hR : ∀ a b, R a b) (l : List α) : l.Pairwise R := by
  induction l with
  | nil => exact .nil
  | cons x xs ih => exact List.Pairwise.cons (fun y _ => hR x y) ih

/-- One dequeue-and-expand step preserves the BFS invariant, and every
freshly discovered vertex is at exact distance `lc + 1`. -/
theorem coreInv_step {g : Graph} (hWF : g.WF) {s c : String} {lc : Nat}
    {Q : List (String × Nat)} {V : List String}
    (h : CoreInv g s ((c, lc) :: Q) V) :
    (∀ y ∈ freshL g c V, IsLeast (wset g s y) (lc + 1)) ∧
    CoreInv g s (Q ++ (freshL g c V).map (fun y => (y, lc + 1)))
      (V ++ freshL g c V) := by
  have hcV : c ∈ V := (h.qmem (c, lc) (List.mem_cons_self _ _)).1
  have hcLeast : IsLeast (wset g s c) lc :=
    (h.qmem (c, lc) (List.mem_cons_self _ _)).2
  have hmonoHead : ∀ kl ∈ Q, lc ≤ kl.2 := (List.pairwise_cons.mp h.mono).1
  have hA : ∀ y ∈ freshL g c V, IsLeast (wset g s y) (lc + 1) := by
    intro y hy
    obtain ⟨hyn, hyv⟩ := mem_freshL.mp hy
    have hup : (lc + 1) ∈ wset g s y := walk_snoc hcLeast.1 hyn
    obtain ⟨kl, hkl, m, hm1, hwalk, hleast⟩ :=
      h.front y ⟨lc + 1, hup⟩ hyv
    have hklge : lc ≤ kl.2 := by
      rcases List.mem_cons.mp hkl with rfl | hkl2
      · exact le_refl _
      · exact hmonoHead kl hkl2
    refine ⟨hup, ?_⟩
    intro n hn
    have h1 := hleast.2 hup
    have h2 := hleast.2 hn
    omega
  have hFnodup : (freshL g c V).Nodup := (wf_nbrs_nodup hWF c).1.filter _
  have hFnotV : ∀ y ∈ freshL g c V, y ∉ V :=
    fun y hy => (mem_freshL.mp hy).2
  have hQkeysV : ∀ k ∈ Q.map Prod.fst, k ∈ V := by
    intro k hk
    obtain ⟨kl, hkl, hfst⟩ := List.mem_map.mp hk
    exact hfst ▸ (h.qmem kl (List.mem_cons_of_mem _ hkl)).1
  have hmapkeys : ((freshL g c V).map (fun y => (y, lc + 1))).map Prod.fst =
      freshL g c V := by
    rw [List.map_map]
    have hid : (Prod.fst ∘ fun y : String => (y, lc + 1)) = id := rfl
    rw [hid, List.map_id]
  have hkeysQ2 : (Q ++ (freshL g c V).map (fun y => (y, lc + 1))).map
      Prod.fst = Q.map Prod.fst ++ freshL g c V := by
    rw [List.map_append, hmapkeys]
  have hmemF : ∀ kl ∈ (freshL g c V).map (fun y => (y, lc + 1)),
      kl.1 ∈ freshL g c V ∧ kl.2 = lc + 1 := by
    intro kl hkl
    obtain ⟨y, hy, hEq⟩ := List.mem_map.mp hkl
    rw [← hEq]
    exact ⟨hy, rfl⟩
  have hspanHead : ∀ kl ∈ Q, kl.2 ≤ lc + 1 :=
    fun kl hkl => h.span kl (List.mem_cons_of_mem _ hkl) (c, lc)
      (List.mem_cons_self _ _)
  have hqnodupTail : (Q.map Prod.fst).Nodup ∧ c ∉ Q.map Prod.fst := by
    have hq := h.qnodup
    rw [List.map_cons, List.nodup_cons] at hq
    exact ⟨hq.2, hq.1⟩
  refine ⟨hA, ?_⟩
  refine ⟨?_, ?_, ?_, ?_, ?_, ?_, ?_, ?_, ?_, ?_⟩
  · -- qmem
    intro kl hkl
    rcases List.mem_append.mp hkl with hkl | hkl
    · obtain ⟨h1, h2⟩ := h.qmem kl (List.mem_cons_of_mem _ hkl)
      exact ⟨List.mem_append.mpr (Or.inl h1), h2⟩
    · obtain ⟨h1, h2⟩ := hmemF kl hkl
      exact ⟨List.mem_append.mpr (Or.inr h1), h2 ▸ hA kl.1 h1⟩
  · -- vnodup
    refine List.Nodup.append h.vnodup hFnodup ?_
    exact List.disjoint_left.mpr (fun a ha hfa => hFnotV a hfa ha)
  · -- qnodup
    rw [hkeysQ2]
    refine List.Nodup.append hqnodupTail.1 hFnodup ?_
    exact List.disjoint_left.mpr
      (fun a ha hfa => hFnotV a hfa (hQkeysV a ha))
  · -- smem
    exact List.mem_append.mpr (Or.inl h.smem)
  · -- procClosed
    intro x hx hxq y hy
    rw [hkeysQ2] at hxq
    rcases List.mem_append.mp hx with hxV | hxF
    · by_cases hxc : x = c
      · subst hxc
        by_cases hyV : y ∈ V
        · exact List.mem_append.mpr (Or.inl hyV)
        · exact List.mem_append.mpr (Or.inr (mem_freshL.mpr ⟨hy, hyV⟩))
      · have hxnot : x ∉ ((c, lc) :: Q).map Prod.fst := by
          rw [List.map_cons]
          intro hc2
          rcases List.mem_cons.mp hc2 with hc2 | hc2
          · exact hxc hc2
          · exact (fun hq => hxq (List.mem_append.mpr (Or.inl hq))) hc2
        exact List.mem_append.mpr
          (Or.inl (h.procClosed x hxV hxnot y hy))
    · exact absurd (List.mem_append.mpr (Or.inr hxF)) hxq
  · -- vreach
    intro x hx
    rcases List.mem_append.mp hx with hx | hx
    · exact h.vreach x hx
    · exact ⟨lc + 1, (hA x hx).1⟩
  · -- mono
    rw [List.pairwise_append]
    refine ⟨(List.pairwise_cons.mp h.mono).2, ?_, ?_⟩
    · have hbase : (freshL g c V).Pairwise
          (fun _ _ : String => lc + 1 ≤ lc + 1) :=
        pairwise_of_total _ (fun _ _ => le_refl _) _
      exact List.Pairwise.map _ (fun a b hab => hab) hbase
    · intro a ha b hb
      have hb2 := (hmemF b hb).2
      rw [hb2]
      exact hspanHead a ha
  · -- span
    intro a ha b hb
    rcases List.mem_append.mp ha with ha | ha <;>
      rcases List.mem_append.mp hb with hb | hb
    · exact h.span a (List.mem_cons_of_mem _ ha) b
        (List.mem_cons_of_mem _ hb)
    · rw [(hmemF b hb).2]
      have := hspanHead a ha
      omega
    · rw [(hmemF a ha).2]
      have := hmonoHead b hb
      omega
    · rw [(hmemF a ha).2, (hmemF b hb).2]
      omega
  · -- procLe
    intro x hx hxq dx hdx b hb
    rw [hkeysQ2] at hxq
    rcases List.mem_append.mp hx with hxV | hxF
    · by_cases hxc : x = c
      · subst hxc
        have hdlc : dx = lc :=
          le_antisymm (hdx.2 hcLeast.1) (hcLeast.2 hdx.1)
        rcases List.mem_append.mp hb with hb | hb
        · rw [hdlc]
          exact hmonoHead b hb
        · rw [hdlc, (hmemF b hb).2]
          omega
      · have hxnot : x ∉ ((c, lc) :: Q).map Prod.fst := by
          rw [List.map_cons]
          intro hc2
          rcases List.mem_cons.mp hc2 with hc2 | hc2
          · exact hxc hc2
          · exact (fun hq => hxq (List.mem_append.mpr (Or.inl hq))) hc2
        have hple := h.procLe x hxV hxnot dx hdx
        rcases List.mem_append.mp hb with hb | hb
        · exact hple b (List.mem_cons_of_mem _ hb)
        · rw [(hmemF b hb).2]
          have := hple (c, lc) (List.mem_cons_self _ _)
          omega
    · exact absurd (List.mem_append.mpr (Or.inr hxF)) hxq
  · -- front
    intro x hxreach hxv
    have hxV : x ∉ V := fun hc2 => hxv (List.mem_append.mpr (Or.inl hc2))
    have hxF : x ∉ freshL g c V :=
      fun hc2 => hxv (List.mem_append.mpr (Or.inr hc2))
    obtain ⟨kl, hkl, m, hm1, hwalk, hleast⟩ := h.front x hxreach hxV
    rcases List.mem_cons.mp hkl with rfl | hklQ
    · -- the witness was the dequeued head (c, lc)
      cases hwalk with
      | nil => omega
      | @cons _ y _ m2 hyc hw2 =>
        by_cases hyF : y ∈ V
        · -- y already discovered
          by_cases hyQ : y ∈ Q.map Prod.fst
          · obtain ⟨kl2, hkl2, hfst⟩ := List.mem_map.mp hyQ
            obtain ⟨_, hkl2least⟩ :=
              h.qmem kl2 (List.mem_cons_of_mem _ hkl2)
            rw [hfst] at hkl2least
            have hupy : (lc + 1) ∈ wset g s y := walk_snoc hcLeast.1 hyc
            have hly_le : kl2.2 ≤ lc + 1 := hkl2least.2 hupy
            have hm2pos : 1 ≤ m2 := by
              rcases Nat.eq_zero_or_pos m2 with hz | hp
              · subst hz
                have hyx : y = x := walk_zero hw2
                rw [hyx] at hyF
                exact absurd hyF hxV
              · exact hp
            have hxmem : (kl2.2 + m2) ∈ wset g s x :=
              walk_trans hkl2least.1 hw2
            have hge := hleast.2 hxmem
            have hly : kl2.2 = lc + 1 := by omega
            refine ⟨kl2, List.mem_append.mpr (Or.inl hkl2), m2, hm2pos,
              hfst ▸ hw2, ?_⟩
            have harith : kl2.2 + m2 = lc + (m2 + 1) := by omega
            rw [harith]
            exact hleast
          · -- y was processed already: contradiction with minimality
            by_cases hyc2 : y = c
            · subst hyc2
              have hxmem : (lc + m2) ∈ wset g s x :=
                walk_trans hcLeast.1 hw2
              have := hleast.2 hxmem
              omega
            · have hynot : y ∉ ((c, lc) :: Q).map Prod.fst := by
                rw [List.map_cons]
                intro hc2
                rcases List.mem_cons.mp hc2 with hc2 | hc2
                · exact hyc2 hc2
                · exact hyQ hc2
              obtain ⟨dy, hdy⟩ :=
                exists_least_of_mem (h.vreach y hyF).choose_spec
              have hdylc := h.procLe y hyF hynot dy hdy (c, lc)
                (List.mem_cons_self _ _)
              have hxmem : (dy + m2) ∈ wset g s x :=
                walk_trans hdy.1 hw2
              have := hleast.2 hxmem
              omega
        · -- y is freshly discovered
          have hyFr : y ∈ freshL g c V := mem_freshL.mpr ⟨hyc, hyF⟩
          have hm2pos : 1 ≤ m2 := by
            rcases Nat.eq_zero_or_pos m2 with hz | hp
            · subst hz
              have hyx : y = x := walk_zero hw2
              rw [hyx] at hyFr
              exact absurd hyFr hxF
            · exact hp
          refine ⟨(y, lc + 1),
            List.mem_append.mpr (Or.inr (List.mem_map.mpr ⟨y, hyFr, rfl⟩)),
            m2, hm2pos, hw2, ?_⟩
          have harith : lc + 1 + m2 = lc + (m2 + 1) := by omega
          rw [harith]
          exact hleast
    · exact ⟨kl, List.mem_append.mpr (Or.inl hklQ), m, hm1, hwalk, hleast⟩

theorem filter_notmem_append (rest V : List String) (n : String)
    (hn : n ∉ rest) :
    rest.filter (fun y => y ∉ V ++ [n]) = rest.filter (fun y => y ∉ V) := by
  apply List.filter_congr
  intro y hy
  have hyn : ¬ y = n := fun hc => hn (hc ▸ hy)
  simp [List.mem_append, hyn]

theorem bfsEnqueue_eq (p : List String) :
    ∀ (ns : List String) (Q : List (String × List String))
      (V : List String), ns.Nodup →
    bfsEnqueue p ns Q V =
      (Q ++ (ns.filter (fun y => y ∉ V)).map (fun y => (y, p ++ [y])),
       V ++ ns.filter (fun y => y ∉ V)) := by
  intro ns
  induction ns with
  | nil =>
    intro Q V _
    simp [bfsEnqueue]
  | cons n rest ih =>
    intro Q V hnd
    rw [List.nodup_cons] at hnd
    unfold bfsEnqueue
    by_cases hn : n ∈ V
    · rw [if_pos hn, ih Q V hnd.2]
      have hfc : (n :: rest).filter (fun y => y ∉ V) =
          rest.filter (fun y => y ∉ V) := by
        rw [List.filter_cons]
        simp [hn]
      rw [hfc]
    · rw [if_neg hn, ih (Q ++ [(n, p ++ [n])]) (V ++ [n]) hnd.2]
      have hfc : (n :: rest).filter (fun y => y ∉ V) =
          n :: rest.filter (fun y => y ∉ V) := by
        rw [List.filter_cons]
        simp [hn]
      rw [hfc, filter_notmem_append rest V n hnd.1]
      simp [List.append_assoc]

theorem distEnqueue_eq (dc : Option Nat) :
    ∀ (ns : List String) (Q V : List String)
      (D : List (String × Option Nat)), ns.Nodup →
    distEnqueue dc ns Q V D =
      (Q ++ ns.filter (fun y => y ∉ V),
       V ++ ns.filter (fun y => y ∉ V),
       (ns.filter (fun y => y ∉ V)).foldl
         (fun Dacc y => assocSet Dacc y (dc.map (· + 1))) D) := by
  intro ns
  induction ns with
  | nil =>
    intro Q V D _
    simp [distEnqueue]
  | cons n rest ih =>
    intro Q V D hnd
    rw [List.nodup_cons] at hnd
    unfold distEnqueue
    by_cases hn : n ∈ V
    · rw [if_pos hn, ih Q V D hnd.2]
      have hfc : (n :: rest).filter (fun y => y ∉ V) =
          rest.filter (fun y => y ∉ V) := by
        rw [List.filter_cons]
        simp [hn]
      rw [hfc]
    · rw [if_neg hn,
        ih (Q ++ [n]) (V ++ [n]) (assocSet D n (dc.map (· + 1))) hnd.2]
      have hfc : (n :: rest).filter (fun y => y ∉ V) =
          n :: rest.filter (fun y => y ∉ V) := by
        rw [List.filter_cons]
        simp [hn]
      rw [hfc, filter_notmem_append rest V n hnd.1]
      simp [List.append_assoc]

theorem head?_append_left {α : Type} {l1 : List α} (l2 : List α)
    (h : l1 ≠ []) : (l1 ++ l2).head? = l1.head? := by
  cases l1 with
  | nil => exact absurd rfl h
  | cons a l => rfl

theorem filter_sub_singleton (keys V : List String) (y : String)
    (hyk : y ∈ keys) (hyV : y ∉ V) :
    (keys.filter (fun k => k ∉ V ++ [y])).length + 1 ≤
      (keys.filter (fun k => k ∉ V)).length := by
  have hsplit : keys.filter (fun k => k ∉ V ++ [y]) =
      (keys.filter (fun k => k ∉ V)).filter (fun k => ¬ k = y) := by
    rw [List.filter_filter]
    apply List.filter_congr
    intro k _
    simp [List.mem_append]
    exact Bool.and_comm _ _
  rw [hsplit]
  have hyL : y ∈ keys.filter (fun k => k ∉ V) := by
    rw [List.mem_filter]
    simp [hyk, hyV]
  have hlt : ((keys.filter (fun k => k ∉ V)).filter
      (fun k => ¬ k = y)).length < (keys.filter (fun k => k ∉ V)).length := by
    rw [List.length_filter_lt_length_iff_exists]
    exact ⟨y, hyL, by simp⟩
  omega

theorem fresh_count (keys : List String) :
    ∀ (F V : List String), (∀ y ∈ F, y ∉ V) → (∀ y ∈ F, y ∈ keys) →
      F.Nodup →
    (keys.filter (fun k => k ∉ V ++ F)).length + F.length ≤
      (keys.filter (fun k => k ∉ V)).length := by
  intro F
  induction F with
  | nil =>
    intro V _ _ _
    simp
  | cons y F2 ih =>
    intro V hdisj hFk hnd
    rw [List.nodup_cons] at hnd
    have hstep := filter_sub_singleton keys V y (hFk y (by simp))
      (hdisj y (by simp))
    have hih := ih (V ++ [y])
      (fun z hz => by
        have hzV := hdisj z (List.mem_cons_of_mem _ hz)
        have hzy : ¬ z = y := fun hc => hnd.1 (hc ▸ hz)
        simp [List.mem_append, hzV, hzy])
      (fun z hz => hFk z (List.mem_cons_of_mem _ hz)) hnd.2
    have hassoc : (V ++ [y]) ++ F2 = V ++ y :: F2 := by
      rw [List.append_assoc]
      rfl
    rw [hassoc] at hih
    simp only [List.length_cons]
    omega

/-- Main lemma for `bfsLoop`: under the invariant, with sufficient fuel, the
loop returns a shortest path to `t` when `t` is reachable and the empty list
otherwise (in particular, the fuel never runs out). -/
theorem bfsLoop_main {g : Graph} (hWF : g.WF) (s t : String) :
    ∀ (fuel : Nat) (Qp : List (String × List String)) (V : List String),
      CoreInv g s (Qp.map (fun kp => (kp.1, kp.2.length - 1))) V →
      (∀ kp ∈ Qp, kp.2 ≠ [] ∧ kp.2.head? = some s ∧
        kp.2.getLast? = some kp.1 ∧
        kp.2.Chain' (fun a b => b ∈ g.nbrs a)) →
      (t ∈ V → t ∈ Qp.map Prod.fst) →
      Qp.length + (g.keysList.filter (fun k => k ∉ V)).length ≤ fuel →
      ((ReachG g s t →
        ∃ p, bfsLoop g t Qp V fuel = some p ∧ p ≠ [] ∧
          p.head? = some s ∧ p.getLast? = some t ∧
          p.Chain' (fun a b => b ∈ g.nbrs a) ∧
          IsLeast (wset g s t) (p.length - 1)) ∧
      (¬ ReachG g s t → bfsLoop g t Qp V fuel = some [])) := by
  intro fuel
  induction fuel with
  | zero =>
    intro Qp V hInv hPath hTrack hFuel
    cases Qp with
    | nil =>
      constructor
      · intro hreach
        exfalso
        have htV : t ∉ V := by
          intro ht
          have hc2 := hTrack ht
          simp at hc2
        obtain ⟨kl, hkl, _⟩ := hInv.front t hreach htV
        simp at hkl
      · intro _
        rfl
    | cons kp Qp2 =>
      exfalso
      rw [List.length_cons] at hFuel
      omega
  | succ fuel ih =>
    intro Qp V hInv hPath hTrack hFuel
    cases Qp with
    | nil =>
      constructor
      · intro hreach
        exfalso
        have htV : t ∉ V := by
          intro ht
          have hc2 := hTrack ht
          simp at hc2
        obtain ⟨kl, hkl, _⟩ := hInv.front t hreach htV
        simp at hkl
      · intro _
        rfl
    | cons kp Qp2 =>
      obtain ⟨c, p⟩ := kp
      obtain ⟨hpne, hphead, hplast, hpchain⟩ :=
        hPath (c, p) (List.mem_cons_self _ _)
      have hheadmem : (c, p.length - 1) ∈
          ((c, p) :: Qp2).map (fun kp => (kp.1, kp.2.length - 1)) :=
        List.mem_cons_self _ _
      by_cases hct : c = t
      · subst hct
        constructor
        · intro _
          refine ⟨p, ?_, hpne, hphead, hplast, hpchain, ?_⟩
          · simp [bfsLoop]
          · exact (hInv.qmem (c, p.length - 1) hheadmem).2
        · intro hnreach
          exact absurd (hInv.vreach c (hInv.qmem _ hheadmem).1) hnreach
      · have hnn := wf_nbrs_nodup hWF c
        have hloop : bfsLoop g t ((c, p) :: Qp2) V (fuel + 1) =
            bfsLoop g t
              (Qp2 ++ (freshL g c V).map (fun y => (y, p ++ [y])))
              (V ++ freshL g c V) fuel := by
          simp only [bfsLoop]
          rw [if_neg hct, bfsEnqueue_eq p (g.nbrs c) Qp2 V hnn.1]
          rfl
        obtain ⟨hAl, hInv2⟩ := coreInv_step hWF hInv
        have hp0 : 0 < p.length := List.length_pos.mpr hpne
        have hmapQ : (Qp2 ++ (freshL g c V).map
            (fun y => (y, p ++ [y]))).map
            (fun kp => (kp.1, kp.2.length - 1)) =
            Qp2.map (fun kp => (kp.1, kp.2.length - 1)) ++
              (freshL g c V).map (fun y => (y, p.length - 1 + 1)) := by
          rw [List.map_append, List.map_map]
          congr 1
          apply List.map_congr_left
          intro y _
          show (y, (p ++ [y]).length - 1) = (y, p.length - 1 + 1)
          rw [List.length_append, List.length_singleton]
          have harith : p.length + 1 - 1 = p.length - 1 + 1 := by omega
          rw [harith]
        rw [← hmapQ] at hInv2
        have hPath2 : ∀ kp ∈ Qp2 ++ (freshL g c V).map
            (fun y => (y, p ++ [y])), kp.2 ≠ [] ∧
            kp.2.head? = some s ∧ kp.2.getLast? = some kp.1 ∧
            kp.2.Chain' (fun a b => b ∈ g.nbrs a) := by
          intro kp hkp
          rcases List.mem_append.mp hkp with hkp | hkp
          · exact hPath kp (List.mem_cons_of_mem _ hkp)
          · obtain ⟨y, hy, hEq⟩ := List.mem_map.mp hkp
            subst hEq
            have hynb : y ∈ g.nbrs c := (mem_freshL.mp hy).1
            refine ⟨by simp, ?_, ?_, ?_⟩
            · rw [head?_append_left _ hpne]
              exact hphead
            · simp
            · rw [List.chain'_append]
              refine ⟨hpchain, List.chain'_singleton y, ?_⟩
              intro x hx y2 hy2
              rw [hplast] at hx
              simp at hx hy2
              subst hx
              subst hy2
              exact hynb
        have hTrack2 : t ∈ V ++ freshL g c V →
            t ∈ (Qp2 ++ (freshL g c V).map
              (fun y => (y, p ++ [y]))).map Prod.fst := by
          intro ht
          rw [List.map_append]
          have hmk : ((freshL g c V).map
              (fun y => (y, p ++ [y]))).map Prod.fst = freshL g c V := by
            rw [List.map_map]
            have hid : (Prod.fst ∘ fun y : String => (y, p ++ [y])) =
                id := rfl
            rw [hid, List.map_id]
          rcases List.mem_append.mp ht with ht | ht
          · have hc2 := hTrack ht
            rw [List.map_cons] at hc2
            rcases List.mem_cons.mp hc2 with hc3 | hc3
            · exact absurd hc3.symm hct
            · exact List.mem_append.mpr (Or.inl hc3)
          · refine List.mem_append.mpr (Or.inr ?_)
            rw [hmk]
            exact ht
        have hFk : ∀ y ∈ freshL g c V, y ∈ g.keysList :=
          fun y hy =>
            (item_in_graph_iff g y).mp (hnn.2 y (mem_freshL.mp hy).1)
        have hFnd : (freshL g c V).Nodup := hnn.1.filter _
        have hFV : ∀ y ∈ freshL g c V, y ∉ V :=
          fun y hy => (mem_freshL.mp hy).2
        have hcount := fresh_count g.keysList (freshL g c V) V hFV hFk hFnd
        have hFuel2 : (Qp2 ++ (freshL g c V).map
            (fun y => (y, p ++ [y]))).length +
            (g.keysList.filter
              (fun k => k ∉ V ++ freshL g c V)).length ≤ fuel := by
          rw [List.length_append, List.length_map]
          rw [List.length_cons] at hFuel
          omega
        rw [hloop]
        exact ih (Qp2 ++ (freshL g c V).map (fun y => (y, p ++ [y])))
          (V ++ freshL g c V) hInv2 hPath2 hTrack2 hFuel2

/-- The BFS invariant holds for the initial one-element queue. -/
theorem coreInv_init (g : Graph) (s : String) :
    CoreInv g s [(s, 0)] [s] := by
  have hleast : IsLeast (wset g s s) 0 :=
    ⟨WalkN.nil s, fun n _ => Nat.zero_le n⟩
  refine ⟨?_, ?_, ?_, ?_, ?_, ?_, ?_, ?_, ?_, ?_⟩
  · intro kl hkl
    simp at hkl
    subst hkl
    exact ⟨by simp, hleast⟩
  · simp
  · simp
  · simp
  · intro x hx hxq
    simp at hx hxq
    rw [hx] at hxq
    simp at hxq
  · intro x hx
    simp at hx
    rw [hx]
    exact ⟨0, WalkN.nil s⟩
  · simp
  · intro a ha b hb
    simp at ha hb
    subst ha
    subst hb
    simp
  · intro x hx hxq
    simp at hx hxq
    rw [hx] at hxq
    simp at hxq
  · intro x hxreach hxs
    obtain ⟨n, hn⟩ := hxreach
    obtain ⟨dx, hdx⟩ := exists_least_of_mem hn
    have hdx1 : 1 ≤ dx := by
      rcases Nat.eq_zero_or_pos dx with hz | hp
      · exfalso
        have hx0 : WalkN g s x 0 := hz ▸ hdx.1
        have hsx := walk_zero hx0
        rw [← hsx] at hxs
        simp at hxs
      · exact hp
    refine ⟨(s, 0), by simp, dx, hdx1, hdx.1, ?_⟩
    rw [Nat.zero_add]
    exact hdx

/-- Claim C5: `shortest_path_bfs` raises `ValueError` when either endpoint
is absent; with both present it returns the empty sequence when the target
is unreachable, and otherwise a neighbour-chained path from start to target
whose hop count `p.length - 1` is the minimum hop-distance; in particular
`shortest_path_bfs a a` returns `[a]`. -/
theorem shortest_path_bfs_spec (g : Graph) (s t : String) (hWF : g.WF) :
    (¬ (g.item_in_graph s = true ∧ g.item_in_graph t = true) →
      g.shortest_path_bfs s t = .error .valueError) ∧
    (g.item_in_graph s = true → g.item_in_graph t = true →
      (ReachG g s t →
        ∃ p, g.shortest_path_bfs s t = .ok p ∧ p ≠ [] ∧
          p.head? = some s ∧ p.getLast? = some t ∧
          p.Chain' (fun a b => b ∈ g.nbrs a) ∧
          IsLeast (wset g s t) (p.length - 1)) ∧
      (¬ ReachG g s t → g.shortest_path_bfs s t = .ok [])) ∧
    (g.item_in_graph s = true → g.shortest_path_bfs s s = .ok [s]) := by
  have hmain : ∀ t2 : String,
      (ReachG g s t2 →
        ∃ p, bfsLoop g t2 [(s, [s])] [s] (g.vertices.length + 1) =
            some p ∧ p ≠ [] ∧ p.head? = some s ∧ p.getLast? = some t2 ∧
          p.Chain' (fun a b => b ∈ g.nbrs a) ∧
          IsLeast (wset g s t2) (p.length - 1)) ∧
      (¬ ReachG g s t2 →
        bfsLoop g t2 [(s, [s])] [s] (g.vertices.length + 1) = some []) := by
    intro t2
    refine bfsLoop_main hWF s t2 (g.vertices.length + 1) [(s, [s])] [s]
      ?_ ?_ ?_ ?_
    · exact coreInv_init g s
    · intro kp hkp
      simp at hkp
      subst hkp
      exact ⟨by simp, rfl, rfl, List.chain'_singleton s⟩
    · intro ht2
      simp at ht2
      subst ht2
      simp
    · have hle : (g.keysList.filter (fun k => k ∉ [s])).length ≤
          g.vertices.length := by
        have h1 := List.length_filter_le (fun k => k ∉ [s]) g.keysList
        have h2 : g.keysList.length = g.vertices.length :=
          List.length_map _ _
        omega
      simp only [List.length_singleton]
      omega
  refine ⟨?_, ?_, ?_⟩
  · intro habs
    unfold Graph.shortest_path_bfs
    rw [if_neg habs]
  · intro hs ht
    constructor
    · intro hreach
      obtain ⟨p, heq, hrest⟩ := (hmain t).1 hreach
      refine ⟨p, ?_, hrest⟩
      unfold Graph.shortest_path_bfs
      rw [if_pos ⟨hs, ht⟩, heq]
      rfl
    · intro hnreach
      have heq := (hmain t).2 hnreach
      unfold Graph.shortest_path_bfs
      rw [if_pos ⟨hs, ht⟩, heq]
      rfl
  · intro hs
    have hreach : ReachG g s s := ⟨0, WalkN.nil s⟩
    obtain ⟨p, heq, hpne, hphead, _, _, hleast⟩ := (hmain s).1 hreach
    have hlen1 : p.length = 1 := by
      have hzero : (0 : Nat) ∈ wset g s s := WalkN.nil s
      have hle := hleast.2 hzero
      have hpos := List.length_pos.mpr hpne
      omega
    obtain ⟨a, ha⟩ := List.length_eq_one.mp hlen1
    subst ha
    simp at hphead
    subst hphead
    unfold Graph.shortest_path_bfs
    rw [if_pos ⟨hs, hs⟩, heq]
    rfl

theorem shortest_path_bfs_spec_witness :
    gPath.WF ∧ gPath.shortest_path_bfs "A" "A" = .ok ["A"] :=
  ⟨by decide,
    (shortest_path_bfs_spec gPath "A" "B" (by decide)).2.2 (by decide)⟩

theorem assocGet_setmap {α : Type} (l : List (String × α)) (k : String)
    (v : α) (k' : String) :
    assocGet (l.map (fun kv => if kv.1 = k then (kv.1, v) else kv)) k' =
      if k' = k then (assocGet l k').map (fun _ => v)
      else assocGet l k' := by
  have h := assocGet_assocUpd l k (fun _ => v) k'
  exact h

theorem assocGet_assocSet {α : Type} (l : List (String × α)) (k : String)
    (v : α) (k' : String) :
    assocGet (assocSet l k v) k' =
      if k' = k then some v else assocGet l k' := by
  unfold assocSet
  by_cases hp : (assocGet l k).isSome = true
  · rw [if_pos hp, assocGet_setmap]
    by_cases hk : k' = k
    · subst hk
      obtain ⟨w, hw⟩ := Option.isSome_iff_exists.mp hp
      rw [if_pos rfl, if_pos rfl, hw]
      rfl
    · rw [if_neg hk, if_neg hk]
  · rw [if_neg hp]
    have hnone : assocGet l k = none := by
      cases hAG : assocGet l k with
      | none => rfl
      | some w => exact absurd (by rw [hAG]; rfl) hp
    by_cases hk : k' = k
    · subst hk
      rw [if_pos rfl, assocGet_append_right _ _ _ hnone]
      simp [assocGet]
    · rw [if_neg hk]
      cases hAG : assocGet l k' with
      | some w =>
        rw [assocGet_append_left _ _ _ (by rw [hAG]; rfl)]
        exact hAG
      | none =>
        rw [assocGet_append_right _ _ _ hAG]
        simp [assocGet, show ¬ k = k' from fun hc => hk hc.symm]

theorem assocGet_foldl_set_notmem {α : Type} (val : α) :
    ∀ (F : List String) (D : List (String × α)) (k : String), k ∉ F →
    assocGet (F.foldl (fun Dacc y => assocSet Dacc y val) D) k =
      assocGet D k := by
  intro F
  induction F with
  | nil =>
    intro D k _
    rfl
  | cons y F2 ih =>
    intro D k hk
    simp only [List.foldl_cons]
    rw [ih (assocSet D y val) k
      (fun hc => hk (List.mem_cons_of_mem _ hc))]
    rw [assocGet_assocSet,
      if_neg (fun hc => hk (List.mem_cons.mpr (Or.inl hc)))]

theorem assocGet_foldl_set_mem {α : Type} (val : α) :
    ∀ (F : List String) (D : List (String × α)) (k : String),
      F.Nodup → k ∈ F →
    assocGet (F.foldl (fun Dacc y => assocSet Dacc y val) D) k =
      some val := by
  intro F
  induction F with
  | nil =>
    intro D k _ hk
    simp at hk
  | cons y F2 ih =>
    intro D k hnd hk
    rw [List.nodup_cons] at hnd
    simp only [List.foldl_cons]
    rcases List.mem_cons.mp hk with rfl | hk2
    · rw [assocGet_foldl_set_notmem val F2 _ k hnd.1,
        assocGet_assocSet, if_pos rfl]
    · exact ih (assocSet D y val) k hnd.2 hk2

theorem assocSet_keys_of_present {α : Type} (l : List (String × α))
    (k : String) (v : α) (h : k ∈ l.map Prod.fst) :
    (assocSet l k v).map Prod.fst = l.map Prod.fst := by
  unfold assocSet
  rw [if_pos ((assocGet_isSome_iff l k).mpr h)]
  have hu := assocUpd_keys l k (fun _ => v)
  exact hu

theorem foldl_set_keys {α : Type} (val : α) :
    ∀ (F : List String) (D : List (String × α)),
      (∀ y ∈ F, y ∈ D.map Prod.fst) →
    (F.foldl (fun Dacc y => assocSet Dacc y val) D).map Prod.fst =
      D.map Prod.fst := by
  intro F
  induction F with
  | nil =>
    intro D _
    rfl
  | cons y F2 ih =>
    intro D hall
    simp only [List.foldl_cons]
    have hy := assocSet_keys_of_present D y val (hall y (by simp))
    rw [ih (assocSet D y val)
      (fun z hz => by rw [hy]; exact hall z (List.mem_cons_of_mem _ hz))]
    exact hy

theorem assocGet_mapconst {α β : Type} (l : List (String × α)) (c : β)
    (k : String) :
    assocGet (l.map (fun kv => (kv.1, c))) k =
      if k ∈ l.map Prod.fst then some c else none := by
  induction l with
  | nil => simp [assocGet]
  | cons kv rest ih =>
    simp only [List.map_cons, assocGet]
    by_cases h1 : kv.1 = k
    · rw [if_pos h1, if_pos (by rw [h1]; exact List.mem_cons_self _ _)]
    · rw [if_neg h1, ih]
      by_cases h2 : k ∈ rest.map Prod.fst
      · rw [if_pos h2, if_pos (List.mem_cons_of_mem _ h2)]
      · rw [if_neg h2, if_neg ?_]
        intro hc
        rcases List.mem_cons.mp hc with hc | hc
        · exact h1 hc.symm
        · exact h2 hc

/-- Main lemma for `distLoop`: under the invariant, with sufficient fuel,
the loop terminates and the final dict maps every reachable key to its
minimum hop-distance and every unreachable key to `none` (infinity). -/
theorem distLoop_main {g : Graph} (hWF : g.WF) (s : String) :
    ∀ (fuel : Nat) (L : List (String × Nat)) (V : List String)
      (D : List (String × Option Nat)),
      CoreInv g s L V →
      (∀ kl ∈ L, assocGet D kl.1 = some (some kl.2)) →
      (∀ x ∈ V, ∃ dx, assocGet D x = some (some dx) ∧
        IsLeast (wset g s x) dx) →
      (∀ x ∈ g.keysList, x ∉ V → assocGet D x = some none) →
      D.map Prod.fst = g.keysList →
      L.length + (g.keysList.filter (fun k => k ∉ V)).length ≤ fuel →
      ∃ Dfin, distLoop g (L.map Prod.fst) V D fuel = some Dfin ∧
        ∀ x ∈ g.keysList,
          (ReachG g s x → ∃ dx, assocGet Dfin x = some (some dx) ∧
            IsLeast (wset g s x) dx) ∧
          (¬ ReachG g s x → assocGet Dfin x = some none) := by
  intro fuel
  induction fuel with
  | zero =>
    intro L V D hInv hQD hD1 hD2 hDdom hFuel
    cases L with
    | nil =>
      refine ⟨D, rfl, ?_⟩
      intro x hx
      constructor
      · intro hreach
        by_cases hxV : x ∈ V
        · exact hD1 x hxV
        · obtain ⟨kl, hkl, _⟩ := hInv.front x hreach hxV
          simp at hkl
      · intro hnreach
        refine hD2 x hx (fun hxV => hnreach (hInv.vreach x hxV))
    | cons kl L2 =>
      exfalso
      rw [List.length_cons] at hFuel
      omega
  | succ fuel ih =>
    intro L V D hInv hQD hD1 hD2 hDdom hFuel
    cases L with
    | nil =>
      refine ⟨D, rfl, ?_⟩
      intro x hx
      constructor
      · intro hreach
        by_cases hxV : x ∈ V
        · exact hD1 x hxV
        · obtain ⟨kl, hkl, _⟩ := hInv.front x hreach hxV
          simp at hkl
      · intro hnreach
        refine hD2 x hx (fun hxV => hnreach (hInv.vreach x hxV))
    | cons kl L2 =>
      obtain ⟨c, lc⟩ := kl
      have hnn := wf_nbrs_nodup hWF c
      have hdc : assocGet D c = some (some lc) :=
        hQD (c, lc) (List.mem_cons_self _ _)
      have hloop : distLoop g (((c, lc) :: L2).map Prod.fst) V D
          (fuel + 1) =
          distLoop g (L2.map Prod.fst ++ freshL g c V) (V ++ freshL g c V)
            ((freshL g c V).foldl
              (fun Dacc y => assocSet Dacc y (some (lc + 1))) D) fuel := by
        show distLoop g (c :: L2.map Prod.fst) V D (fuel + 1) = _
        simp only [distLoop]
        rw [hdc]
        have hgetd : ((some (some lc) : Option (Option Nat)).getD none) =
            some lc := rfl
        rw [hgetd, distEnqueue_eq (some lc) (g.nbrs c)
          (L2.map Prod.fst) V D hnn.1]
        have hmap1 : (some lc).map (· + 1) = some (lc + 1) := rfl
        rw [hmap1]
        rfl
      obtain ⟨hAl, hInv2⟩ := coreInv_step hWF hInv
      have hFk : ∀ y ∈ freshL g c V, y ∈ g.keysList :=
        fun y hy =>
          (item_in_graph_iff g y).mp (hnn.2 y (mem_freshL.mp hy).1)
      have hFnd : (freshL g c V).Nodup := hnn.1.filter _
      have hFV : ∀ y ∈ freshL g c V, y ∉ V :=
        fun y hy => (mem_freshL.mp hy).2
      have hGetF : ∀ y ∈ freshL g c V,
          assocGet ((freshL g c V).foldl
            (fun Dacc y2 => assocSet Dacc y2 (some (lc + 1))) D) y =
          some (some (lc + 1)) :=
        fun y hy =>
          assocGet_foldl_set_mem (some (lc + 1)) (freshL g c V) D y hFnd hy
      have hGetNF : ∀ x, x ∉ freshL g c V →
          assocGet ((freshL g c V).foldl
            (fun Dacc y2 => assocSet Dacc y2 (some (lc + 1))) D) x =
          assocGet D x :=
        fun x hx =>
          assocGet_foldl_set_notmem (some (lc + 1)) (freshL g c V) D x hx
      have hVk : ∀ x ∈ V, x ∉ freshL g c V :=
        fun x hx hxF => hFV x hxF hx
      have hmapL2 : (L2 ++ (freshL g c V).map
          (fun y => (y, lc + 1))).map Prod.fst =
          L2.map Prod.fst ++ freshL g c V := by
        rw [List.map_append, List.map_map]
        have hid : (Prod.fst ∘ fun y : String => (y, lc + 1)) = id := rfl
        rw [hid, List.map_id]
      have hQD2 : ∀ kl2 ∈ L2 ++ (freshL g c V).map (fun y => (y, lc + 1)),
          assocGet ((freshL g c V).foldl
            (fun Dacc y2 => assocSet Dacc y2 (some (lc + 1))) D) kl2.1 =
          some (some kl2.2) := by
        intro kl2 hkl2
        rcases List.mem_append.mp hkl2 with hkl2 | hkl2
        · have hkV : kl2.1 ∈ V :=
            (hInv.qmem kl2 (List.mem_cons_of_mem _ hkl2)).1
          rw [hGetNF kl2.1 (hVk kl2.1 hkV)]
          exact hQD kl2 (List.mem_cons_of_mem _ hkl2)
        · obtain ⟨y, hy, hEq⟩ := List.mem_map.mp hkl2
          rw [← hEq]
          exact hGetF y hy
      have hD12 : ∀ x ∈ V ++ freshL g c V, ∃ dx,
          assocGet ((freshL g c V).foldl
            (fun Dacc y2 => assocSet Dacc y2 (some (lc + 1))) D) x =
          some (some dx) ∧ IsLeast (wset g s x) dx := by
        intro x hx
        rcases List.mem_append.mp hx with hx | hx
        · obtain ⟨dx, hget, hleast⟩ := hD1 x hx
          exact ⟨dx, by rw [hGetNF x (hVk x hx)]; exact hget, hleast⟩
        · exact ⟨lc + 1, hGetF x hx, hAl x hx⟩
      have hD22 : ∀ x ∈ g.keysList, x ∉ V ++ freshL g c V →
          assocGet ((freshL g c V).foldl
            (fun Dacc y2 => assocSet Dacc y2 (some (lc + 1))) D) x =
          some none := by
        intro x hx hxVF
        have hxV : x ∉ V := fun hc => hxVF (List.mem_append.mpr (Or.inl hc))
        have hxF : x ∉ freshL g c V :=
          fun hc => hxVF (List.mem_append.mpr (Or.inr hc))
        rw [hGetNF x hxF]
        exact hD2 x hx hxV
      have hDdom2 : ((freshL g c V).foldl
          (fun Dacc y2 => assocSet Dacc y2 (some (lc + 1))) D).map
            Prod.fst = g.keysList := by
        rw [foldl_set_keys (some (lc + 1)) (freshL g c V) D
          (fun y hy => by rw [hDdom]; exact hFk y hy)]
        exact hDdom
      have hcount := fresh_count g.keysList (freshL g c V) V hFV hFk hFnd
      have hFuel2 : (L2 ++ (freshL g c V).map
          (fun y => (y, lc + 1))).length +
          (g.keysList.filter (fun k => k ∉ V ++ freshL g c V)).length ≤
          fuel := by
        rw [List.length_append, List.length_map]
        rw [List.length_cons] at hFuel
        omega
      obtain ⟨Dfin, hfin, hprops⟩ :=
        ih (L2 ++ (freshL g c V).map (fun y => (y, lc + 1)))
          (V ++ freshL g c V)
          ((freshL g c V).foldl
            (fun Dacc y2 => assocSet Dacc y2 (some (lc + 1))) D)
          hInv2 hQD2 hD12 hD22 hDdom2 hFuel2
      rw [hmapL2] at hfin
      refine ⟨Dfin, ?_, hprops⟩
      rw [hloop]
      exact hfin

/-- Full characterisation of `shortest_distance_bfs` at a present start key
(shared by the distance-map and the average claims). -/
theorem shortest_distance_bfs_main (g : Graph) (s : String) (hWF : g.WF)
    (hs : g.item_in_graph s = true) :
    ∃ dm, g.shortest_distance_bfs s = .ok dm ∧
      assocGet dm s = some (some 0) ∧
      ∀ x ∈ g.keysList,
        (ReachG g s x → ∃ dx, assocGet dm x = some (some dx) ∧
          IsLeast (wset g s x) dx) ∧
        (¬ ReachG g s x → assocGet dm x = some none) := by
  have hsk : s ∈ g.keysList := (item_in_graph_iff g s).mp hs
  have hD0dom : (g.vertices.map
      (fun kv => (kv.1, (none : Option Nat)))).map Prod.fst =
      g.keysList := by
    rw [List.map_map]
    rfl
  have hD1dom : (assocSet (g.vertices.map
      (fun kv => (kv.1, (none : Option Nat)))) s (some 0)).map Prod.fst =
      g.keysList := by
    rw [assocSet_keys_of_present _ _ _ (by rw [hD0dom]; exact hsk)]
    exact hD0dom
  have hleast0 : IsLeast (wset g s s) 0 :=
    ⟨WalkN.nil s, fun n _ => Nat.zero_le n⟩
  obtain ⟨Dfin, hfin, hprops⟩ := distLoop_main hWF s
    (g.vertices.length + 1) [(s, 0)] [s]
    (assocSet (g.vertices.map (fun kv => (kv.1, (none : Option Nat)))) s
      (some 0))
    (coreInv_init g s)
    (by
      intro kl hkl
      simp at hkl
      subst hkl
      rw [assocGet_assocSet, if_pos rfl])
    (by
      intro x hx
      simp at hx
      rw [hx]
      exact ⟨0, by rw [assocGet_assocSet, if_pos rfl], hleast0⟩)
    (by
      intro x hx hxs
      simp at hxs
      rw [assocGet_assocSet, if_neg hxs, assocGet_mapconst,
        if_pos (show x ∈ g.vertices.map Prod.fst from hx)])
    hD1dom
    (by
      have h1 := List.length_filter_le (fun k => k ∉ [s]) g.keysList
      have h2 : g.keysList.length = g.vertices.length :=
        List.length_map _ _
      simp only [List.length_singleton]
      omega)
  refine ⟨Dfin, ?_, ?_, hprops⟩
  · unfold Graph.shortest_distance_bfs
    rw [if_pos hs]
    show Except.ok ((distLoop g [s] [s] _ (g.vertices.length + 1)).getD _) =
      Except.ok Dfin
    rw [show distLoop g [s] [s]
        (assocSet (g.vertices.map (fun kv => (kv.1, (none : Option Nat))))
          s (some 0)) (g.vertices.length + 1) =
        distLoop g ([(s, 0)].map Prod.fst) [s]
          (assocSet (g.vertices.map
            (fun kv => (kv.1, (none : Option Nat)))) s (some 0))
          (g.vertices.length + 1) from rfl, hfin]
    rfl
  · obtain ⟨dx, hget, hle⟩ := (hprops s hsk).1 ⟨0, WalkN.nil s⟩
    have hdx0 : dx = 0 := Nat.le_zero.mp (hle.2 (WalkN.nil s))
    rw [hdx0] at hget
    exact hget

/-- Claim C6 (confirmed with the start-included convention): for a present
start, `shortest_distance_bfs` maps every reachable vertex to its minimum
hop-distance, every unreachable vertex to `float("inf")` (`none`), and the
start itself to `0`; it raises `ValueError` for an absent start. -/
theorem shortest_distance_bfs_spec (g : Graph) (s : String) (hWF : g.WF) :
    (¬ g.item_in_graph s = true →
      g.shortest_distance_bfs s = .error .valueError) ∧
    (g.item_in_graph s = true →
      ∃ dm, g.shortest_distance_bfs s = .ok dm ∧
        assocGet dm s = some (some 0) ∧
        ∀ x ∈ g.keysList,
          (ReachG g s x → ∃ dx, assocGet dm x = some (some dx) ∧
            IsLeast (wset g s x) dx) ∧
          (¬ ReachG g s x → assocGet dm x = some none)) := by
  constructor
  · intro habs
    unfold Graph.shortest_distance_bfs
    rw [if_neg habs]
  · intro hs
    exact shortest_distance_bfs_main g s hWF hs

theorem shortest_distance_bfs_spec_witness :
    gPath.WF ∧ gPath.item_in_graph "A" = true ∧
    (∃ dm, gPath.shortest_distance_bfs "A" = .ok dm ∧
      assocGet dm "A" = some (some 0) ∧
      ∀ x ∈ gPath.keysList,
        (ReachG gPath "A" x → ∃ dx, assocGet dm x = some (some dx) ∧
          IsLeast (wset gPath "A" x) dx) ∧
        (¬ ReachG gPath "A" x → assocGet dm x = some none)) :=
  ⟨by decide, by decide,
    (shortest_distance_bfs_spec gPath "A" (by decide)).2 (by decide)⟩

/-- Claim C2 (amended): for a present start, `average_bacon_number` returns
the arithmetic mean of the finite distances in the `shortest_distance_bfs`
map. Since the start is always mapped to the finite distance `0`, the set
of finite distances is nonempty and the result is never `float("inf")` —
in particular an isolated start yields `0`, not infinity. -/
theorem average_bacon_number_spec (g : Graph) (s : String) (hWF : g.WF)
    (hs : g.item_in_graph s = true) :
    ∃ dm, g.shortest_distance_bfs s = .ok dm ∧
      g.average_bacon_number s =
        .ok (some (((dm.filterMap Prod.snd).sum : Rat) /
          ((dm.filterMap Prod.snd).length : Rat))) ∧
      0 < (dm.filterMap Prod.snd).length ∧
      g.average_bacon_number s ≠ .ok none := by
  obtain ⟨dm, heq, hstart, _⟩ := shortest_distance_bfs_main g s hWF hs
  have hmem : (s, some 0) ∈ dm := assocGet_mem hstart
  have h0 : (0 : Nat) ∈ dm.filterMap Prod.snd :=
    List.mem_filterMap.mpr ⟨(s, some 0), hmem, rfl⟩
  have hpos : 0 < (dm.filterMap Prod.snd).length :=
    List.length_pos.mpr (List.ne_nil_of_mem h0)
  have havg : g.average_bacon_number s =
      .ok (some (((dm.filterMap Prod.snd).sum : Rat) /
        ((dm.filterMap Prod.snd).length : Rat))) := by
    unfold Graph.average_bacon_number
    rw [heq]
    simp only [if_pos hpos]
  refine ⟨dm, heq, havg, hpos, ?_⟩
  rw [havg]
  simp

theorem average_bacon_number_spec_witness :
    gIso.WF ∧ gIso.item_in_graph "A" = true ∧
    (∃ dm, gIso.shortest_distance_bfs "A" = .ok dm ∧
      gIso.average_bacon_number "A" =
        .ok (some (((dm.filterMap Prod.snd).sum : Rat) /
          ((dm.filterMap Prod.snd).length : Rat))) ∧
      0 < (dm.filterMap Prod.snd).length ∧
      gIso.average_bacon_number "A" ≠ .ok none) :=
  ⟨by decide, by decide,
    average_bacon_number_spec gIso "A" (by decide) (by decide)⟩

/-- Claim C2 (counterexample): for the isolated vertex "A" no other vertex
is reachable, yet the code returns the average `0`, not `+infinity`: the
start itself is counted as a finite distance, so the infinity branch is
unreachable for a present start. -/
theorem average_bacon_number_iso_counterexample :
    gIso.average_bacon_number "A" = .ok (some 0) ∧
    (Except.ok (some 0) : Except Err (Option Rat)) ≠ .ok none ∧
    (∀ x, x ≠ "A" → ¬ ReachG gIso "A" x) := by
  have hdm : gIso.shortest_distance_bfs "A" = .ok [("A", some 0)] := by
    decide
  refine ⟨?_, by decide, ?_⟩
  · unfold Graph.average_bacon_number
    rw [hdm]
    norm_num [List.filterMap_cons]
  intro x hx hreach
  obtain ⟨n, hn⟩ := hreach
  cases hn with
  | nil => exact hx rfl
  | cons hstep _ =>
    have : gIso.nbrs "A" = [] := by decide
    rw [this] at hstep
    simp at hstep

end MovieGraph
